import Mathlib

/-!
# Intent classifier (`utils/intent-classifier/main.go`)

A shallow embedding of the text normaliser, the embedding cache, the similarity
computation, the matching loop, the extraction of metadata and the buckets of
the report, and the properties proved about them.

## Modelling conventions

* A Go `string` holding valid UTF-8 is a `List Char` (its sequence of runes);
  `len(s)` is the number of bytes of the UTF-8 encoding, `byteLen`.
  Where the program slices or hashes a string (`matchItems`, the cache) the
  string is its list of bytes, `utf8Encode`.
* `unicode.IsLetter`, `unicode.IsNumber`, `unicode.ToLower` are the standard
  library's: the Latin-1 part (the library's `properties` array, and the ASCII
  branch of `ToLower`) is written out, the range tables used beyond it are the
  parameter `UnicodeTables`.  `unicode.IsSpace` is written out in full (the
  `White_Space` table).  The regular expression class `\s` is `[\t\n\f\r ]`.
* A `float32` is a value of an arbitrary type `F`; the machine operations on
  it, including `math.Float32bits` and `math.Float32frombits`, are the
  parameter `FloatOps`.  A `uint32` and a `byte` are natural numbers, reduced
  `% 2^32` and `% 256` where the program converts.
* A run-time panic (index or slice bound out of range) is the result `none`.
* A Go `map[string][]string` is a function from keys to lists, an absent key
  holding the empty list.  `filepath.Abs` is a parameter of `extractMetadata`.
-/

namespace IntentClassifier

/-! ## Runes, strings and the standard library functions used -/

/-- A Go string that is valid UTF-8, as its runes. -/
abbrev Str := List Char

/-- Range tables of package `unicode` that are used for runes above Latin-1
(`unicode.Letter`, `unicode.Number`) and above ASCII (`unicode.CaseRanges`,
lower-case mapping). -/
structure UnicodeTables where
  /-- Membership in `unicode.Letter`, consulted for runes above `MaxLatin1`. -/
  Letter : Char → Bool
  /-- Membership in `unicode.Number`, consulted for runes above `MaxLatin1`. -/
  Number : Char → Bool
  /-- Lower-case mapping of `unicode.CaseRanges`, consulted above `MaxASCII`. -/
  Lower : Char → Char

/-- Letters of Latin-1: the entries of the library's `properties` array that
carry `pLu` or `pLl`. -/
def latin1Letter (n : Nat) : Bool :=
  (0x41 ≤ n && n ≤ 0x5A) || (0x61 ≤ n && n ≤ 0x7A) || n == 0xAA || n == 0xB5 || n == 0xBA ||
  (0xC0 ≤ n && n ≤ 0xD6) || (0xD8 ≤ n && n ≤ 0xF6) || (0xF8 ≤ n && n ≤ 0xFF)

/-- Numbers of Latin-1: the entries of the library's `properties` array that
carry `pN`. -/
def latin1Number (n : Nat) : Bool :=
  (0x30 ≤ n && n ≤ 0x39) || n == 0xB2 || n == 0xB3 || n == 0xB9 || (0xBC ≤ n && n ≤ 0xBE)

/-- The function `unicode.IsLetter`. -/
def IsLetter (U : UnicodeTables) (r : Char) : Bool :=
  if r.toNat ≤ 0xFF then latin1Letter r.toNat else U.Letter r

/-- The function `unicode.IsNumber`. -/
def IsNumber (U : UnicodeTables) (r : Char) : Bool :=
  if r.toNat ≤ 0xFF then latin1Number r.toNat else U.Number r

/-- The function `unicode.IsSpace`: the Latin-1 switch, then the `White_Space`
table. -/
def IsSpace (r : Char) : Bool :=
  let n := r.toNat
  if n ≤ 0xFF then
    n == 0x09 || n == 0x0A || n == 0x0B || n == 0x0C || n == 0x0D || n == 0x20 ||
    n == 0x85 || n == 0xA0
  else
    n == 0x1680 || (0x2000 ≤ n && n ≤ 0x200A) || n == 0x2028 || n == 0x2029 ||
    n == 0x202F || n == 0x205F || n == 0x3000

/-- The function `unicode.ToLower`. -/
def ToLowerRune (U : UnicodeTables) (r : Char) : Char :=
  if r.toNat ≤ 0x7F then
    (if 0x41 ≤ r.toNat ∧ r.toNat ≤ 0x5A then Char.ofNat (r.toNat + 0x20) else r)
  else U.Lower r

/-- The function `strings.ToLower`. -/
def ToLower (U : UnicodeTables) (s : Str) : Str := s.map (ToLowerRune U)

/-- A Go string or byte slice as its bytes; a byte is a natural number below 256. -/
abbrev Bytes := List Nat

/-- UTF-8 encoding of one rune. -/
def utf8EncodeRune (r : Char) : Bytes :=
  let n := r.toNat
  if n < 0x80 then [n]
  else if n < 0x800 then [0xC0 + n / 0x40, 0x80 + n % 0x40]
  else if n < 0x10000 then [0xE0 + n / 0x1000, 0x80 + n / 0x40 % 0x40, 0x80 + n % 0x40]
  else [0xF0 + n / 0x40000, 0x80 + n / 0x1000 % 0x40, 0x80 + n / 0x40 % 0x40, 0x80 + n % 0x40]

/-- The bytes of a string. -/
def utf8Encode (s : Str) : Bytes := (s.map utf8EncodeRune).flatten

/-- Number of bytes of a string: Go's `len(s)`. -/
def byteLen (s : Str) : Nat := (utf8Encode s).length

/-- Loop of `Split`: `cur` is the piece being read. -/
def splitAux (sep : Char) : Str → Str → List Str
  | cur, [] => [cur]
  | cur, c :: cs => if c = sep then cur :: splitAux sep [] cs else splitAux sep (cur ++ [c]) cs

/-- The call `strings.Split(s, "\n")`, for the one-rune separator `sep`. -/
def Split (s : Str) (sep : Char) : List Str := splitAux sep [] s

/-- The call `strings.Join(elems, sep)`. -/
def Join : List Str → Str → Str
  | [], _ => []
  | [a], _ => a
  | a :: b :: rest, sep => a ++ sep ++ Join (b :: rest) sep

/-- The call `strings.HasPrefix(s, prefix)`. -/
def HasPrefix (s pre : Str) : Bool := pre.isPrefixOf s

/-- The call `strings.TrimSpace(s)`: leading and trailing runes for which
`unicode.IsSpace` holds are removed. -/
def TrimSpace (s : Str) : Str := ((s.dropWhile IsSpace).reverse.dropWhile IsSpace).reverse

/-- Loop of `FieldsFunc`: `cur` is the field being read. -/
def fieldsAux (f : Char → Bool) : Str → Str → List Str
  | cur, [] => if cur.isEmpty then [] else [cur]
  | cur, c :: cs =>
    if f c then (if cur.isEmpty then fieldsAux f [] cs else cur :: fieldsAux f [] cs)
    else fieldsAux f (cur ++ [c]) cs

/-- The call `strings.FieldsFunc(s, f)`: the maximal runs of runes not
satisfying `f`. -/
def FieldsFunc (s : Str) (f : Char → Bool) : List Str := fieldsAux f [] s

/-- The class `\s` of package `regexp`: `[\t\n\f\r ]`. -/
def reSpace (r : Char) : Bool :=
  r.toNat == 0x09 || r.toNat == 0x0A || r.toNat == 0x0C || r.toNat == 0x0D || r.toNat == 0x20

/-- The call `regexp.MustCompile("\\s+").ReplaceAllString(s, " ")`, scanning
left to right: `inRun` tells that the previous rune was part of the current
match, whose replacement has already been written. -/
def replaceSpaceRuns : Bool → Str → Str
  | _, [] => []
  | inRun, c :: cs =>
    if reSpace c then (if inRun then replaceSpaceRuns true cs else ' ' :: replaceSpaceRuns true cs)
    else c :: replaceSpaceRuns false cs

/-! ## The normaliser -/

/-- The map `stopWords`. -/
def stopWords : List Str :=
  ["a", "an", "and", "are", "as", "at",
   "be", "by", "for", "from", "has", "he",
   "in", "is", "it", "its", "of", "on",
   "that", "the", "to", "was", "will", "with",
   "this", "these", "those", "or", "but", "can",
   "have", "do", "does", "did", "doing"].map String.toList

/-- Loop of `stripFrontmatter` over `lines[1:]`: at the first line that is
`---` after trimming, the lines after it. -/
def findClosing : List Str → Option (List Str)
  | [] => none
  | l :: rest => if TrimSpace l = "---".toList then some rest else findClosing rest

/-- The function `stripFrontmatter`. -/
def stripFrontmatter (text : Str) : Str :=
  match Split text '\n' with
  | [] => text
  | l0 :: rest =>
    if HasPrefix l0 "---".toList then
      match findClosing rest with
      | some after => Join after "\n".toList
      | none => text
    else text

/-- The function `normalizeWhitespace`. -/
def normalizeWhitespace (text : Str) : Str := replaceSpaceRuns false text

/-- The condition under which `removeStopWords` keeps a word. -/
def keepWord (U : UnicodeTables) (word : Str) : Bool :=
  !(stopWords.contains (ToLower U word)) && decide (byteLen word > 1)

/-- The function literal passed to `FieldsFunc` in `removeStopWords`. -/
def isSeparator (U : UnicodeTables) (r : Char) : Bool := !IsLetter U r && !IsNumber U r

/-- The function `removeStopWords`. -/
def removeStopWords (U : UnicodeTables) (text : Str) : Str :=
  let words := FieldsFunc text (isSeparator U)
  Join (words.filter (keepWord U)) " ".toList

/-- The function `preprocessText`. -/
def preprocessText (U : UnicodeTables) (text : Str) : Str :=
  TrimSpace (removeStopWords U (normalizeWhitespace (stripFrontmatter text)))

/-- Tables that hold nothing above Latin-1 and map no rune above it: they agree
with the library's on every rune up to U+00FF. -/
def latin1Tables : UnicodeTables :=
  ⟨fun _ => false, fun _ => false,
    fun r => if (0xC0 ≤ r.toNat ∧ r.toNat ≤ 0xDE) ∧ r.toNat ≠ 0xD7 then Char.ofNat (r.toNat + 0x20)
      else r⟩

/-- The general categories of Unicode are disjoint: no rune with the property
`White_Space` is listed in the tables `Letter` or `Number`. -/
def UnicodeTables.SpaceFree (U : UnicodeTables) : Prop :=
  ∀ r, IsSpace r = true → U.Letter r = false ∧ U.Number r = false

/-! ## Auxiliary notions used in the statements and proofs -/

/-- State of the scan of `replaceSpaceRuns` after reading `a`, having started
in state `f`. -/
def endsInRun : Bool → Str → Bool
  | f, [] => f
  | _, c :: cs => endsInRun (reSpace c) cs

/-- Every string of the list is non-empty and made of letters and numbers. -/
def WordList (U : UnicodeTables) (ts : List Str) : Prop :=
  ∀ t ∈ ts, t ≠ [] ∧ ∀ c ∈ t, isSeparator U c = false

/-! ## Bytes, floats and the outside world -/

/-- The machine operations on `float32` (the type `F`) and `float64` (the type
`D`) that the program uses. -/
structure FloatOps (F D : Type) where
  /-- The `float32` value `0`. -/
  zero : F
  /-- Addition of `float32`. -/
  add : F → F → F
  /-- Multiplication of `float32`. -/
  mul : F → F → F
  /-- Comparison `a >= b` of `float32`. -/
  ge : F → F → Bool
  /-- The function `math.Float32bits`. -/
  Float32bits : F → Nat
  /-- The function `math.Float32frombits`. -/
  Float32frombits : Nat → F
  /-- The conversion `float64(x)`. -/
  toFloat64 : F → D
  /-- The conversion `float32(x)`. -/
  toFloat32 : D → F
  /-- The `float64` value `0`. -/
  zero64 : D
  /-- The `float64` value `1.0`. -/
  one64 : D
  /-- Addition of `float64`. -/
  add64 : D → D → D
  /-- Division of `float64`. -/
  div64 : D → D → D
  /-- The function `math.Sqrt`. -/
  Sqrt : D → D

/-- The embedding model behind package `llama`, as seen by this program: every
answer is a function of the text handed to the model. -/
structure Llama (F : Type) where
  /-- The value `llama.NCtx(lctx)`. -/
  NCtx : Nat
  /-- Whether `llama.InitFromModel` returns a context (a non-zero handle) when
  it is called for the item with this text. -/
  InitFromModel : Bytes → Bool
  /-- The number of tokens `llama.Tokenize` reports for the text. -/
  Tokenize : Bytes → Int
  /-- The status `llama.Encode` returns for the tokens of the text. -/
  Encode : Bytes → Int
  /-- The vector `llama.GetEmbeddingsSeq` returns after encoding the text. -/
  GetEmbeddingsSeq : Bytes → List F

/-- The operating system and the hash function, as seen by this program. -/
structure OS where
  /-- The function `sha256.Sum256`. -/
  Sum256 : Bytes → Bytes
  /-- The directory `getCacheDir()` returns. -/
  cacheDir : Str
  /-- Whether `os.WriteFile` fails for this file name. -/
  writeFails : Str → Bool

/-- The regular files of the file system: names with their contents, the first
entry of a name being the file. -/
abbrev FS := List (Str × Bytes)

/-- The call `os.ReadFile(name)`; `none` is an error. -/
def ReadFile (fs : FS) (name : Str) : Option Bytes := fs.lookup name

/-- The call `os.WriteFile(name, data, 0644)`: the file system afterwards and
whether the call succeeded; a failed call is taken to leave the files as they
were. -/
def WriteFile (os : OS) (fs : FS) (name : Str) (data : Bytes) : FS × Bool :=
  if os.writeFails name then (fs, false)
  else ((name, data) :: fs.filter (fun e => e.1 != name), true)

/-- One hexadecimal digit of `hex.EncodeToString`. -/
def hexDigit (n : Nat) : Char :=
  if n < 10 then Char.ofNat (0x30 + n) else Char.ofNat (0x61 + (n - 10))

/-- The function `hex.EncodeToString`. -/
def hexEncodeToString (b : Bytes) : Str :=
  (b.map (fun x => [hexDigit (x / 16 % 16), hexDigit (x % 16)])).flatten

/-! ## The embedding cache -/

/-- The function `hashContent`. -/
def hashContent (os : OS) (content : Bytes) : Str := hexEncodeToString (os.Sum256 content)

/-- The function `getCacheFile`: `filepath.Join` of the cache directory, the
cache type and the file name; the directory it creates on the way holds no
regular file. -/
def getCacheFile (os : OS) (hash cacheType : Str) : Str :=
  os.cacheDir ++ "/".toList ++ cacheType ++ "/".toList ++ (hash ++ ".cache".toList)

/-- The bytes that `saveCachedEmbedding` writes for one component with the bit
pattern `bits`. -/
def encodeWord (bits : Nat) : Bytes :=
  [bits % 256, (bits >>> 8) % 256, (bits >>> 16) % 256, (bits >>> 24) % 256]

/-- The bit pattern that `loadCachedEmbedding` reads for component `i`; `none`
when an index is out of range. -/
def decodeWord (data : Bytes) (i : Nat) : Option Nat :=
  match data[i * 4]?, data[i * 4 + 1]?, data[i * 4 + 2]?, data[i * 4 + 3]? with
  | some b0, some b1, some b2, some b3 =>
    some ((b0 ||| b1 <<< 8 ||| b2 <<< 16 ||| b3 <<< 24) % 2 ^ 32)
  | _, _, _, _ => none

/-- Loop of `loadCachedEmbedding` over the components `i, i+1, ..., i+n-1`. -/
def decodeLoop {F D : Type} (fl : FloatOps F D) (data : Bytes) : Nat → Nat → Option (List F)
  | 0, _ => some []
  | n + 1, i =>
    match decodeWord data i with
    | none => none
    | some bits =>
      match decodeLoop fl data n (i + 1) with
      | none => none
      | some rest => some (fl.Float32frombits bits :: rest)

/-- The function `loadCachedEmbedding`: the vector and whether it was found. -/
def loadCachedEmbedding {F D : Type} (os : OS) (fl : FloatOps F D) (fs : FS) (content : Bytes) :
    Option (List F × Bool) :=
  let hash := hashContent os content
  let cacheFile := getCacheFile os hash "embeddings".toList
  match ReadFile fs cacheFile with
  | none => some ([], false)
  | some data =>
    if data.length % 4 ≠ 0 then some ([], false)
    else
      match decodeLoop fl data (data.length / 4) 0 with
      | none => none
      | some embedding => some (embedding, true)

/-- The function `saveCachedEmbedding`: the file system afterwards and whether
the call succeeded (returned a nil error). -/
def saveCachedEmbedding {F D : Type} (os : OS) (fl : FloatOps F D) (fs : FS) (content : Bytes)
    (embedding : List F) : FS × Bool :=
  let hash := hashContent os content
  let cacheFile := getCacheFile os hash "embeddings".toList
  let data := (embedding.map (fun v => encodeWord (fl.Float32bits v))).flatten
  WriteFile os fs cacheFile data

/-! ## Embedding and matching -/

/-- The struct `Item`. -/
structure Item where
  Name : Str
  Path : Str
  Content : Str
  Priority : Str
  /-- The field `Type`: `skill` or `agent`. -/
  ItemType : Str
deriving DecidableEq

/-- The struct `Match`. -/
structure Match (F : Type) where
  Name : Str
  Path : Str
  Similarity : F
  Priority : Str
  /-- The field `Type`: `skill` or `agent`. -/
  ItemType : Str
deriving DecidableEq

/-- The function `getEmbedding`. -/
def getEmbedding {F D : Type} (L : Llama F) (fl : FloatOps F D) (text : Bytes) :
    Except String (List F) :=
  if L.Tokenize text ≤ 0 then .error "tokenization returned no tokens"
  else if L.Encode text ≠ 0 then .error "encode failed"
  else
    let vec := L.GetEmbeddingsSeq text
    let sum := vec.foldl (fun sum v => fl.add64 sum (fl.toFloat64 (fl.mul v v))) fl.zero64
    let sum := fl.Sqrt sum
    let norm := fl.toFloat32 (fl.div64 fl.one64 sum)
    .ok (vec.map (fun v => fl.mul v norm))

/-- Loop of `cosineSimilarity` over the rest of `a` from index `i`; `none` when
`b[i]` is out of range. -/
def dotLoop {F D : Type} (fl : FloatOps F D) (b : List F) : List F → Nat → F → Option F
  | [], _, dotProduct => some dotProduct
  | x :: rest, i, dotProduct =>
    match b[i]? with
    | none => none
    | some y => dotLoop fl b rest (i + 1) (fl.add dotProduct (fl.mul x y))

/-- The function `cosineSimilarity`. -/
def cosineSimilarity {F D : Type} (fl : FloatOps F D) (a b : List F) : Option F :=
  if a.length ≠ b.length then some fl.zero
  else dotLoop fl b a 0 fl.zero

/-- The dot product as the specification words it: the sum of the products
`a[i] * b[i]`, accumulated from index 0 upward, starting from 0. -/
def dotProduct {F D : Type} (fl : FloatOps F D) (a b : List F) : F :=
  (List.zip a b).foldl (fun acc p => fl.add acc (fl.mul p.1 p.2)) fl.zero

/-- The slice `itemText[:maxChars]` taken when `len(itemText) > maxChars`; `none`
when the bound is negative. -/
def truncateText (itemText : Bytes) (maxChars : Int) : Option Bytes :=
  if (itemText.length : Int) > maxChars then
    (if maxChars < 0 then none else some (itemText.take maxChars.toNat))
  else some itemText

/-- The text of an item that `matchItems` looks up in the cache. -/
def itemText (U : UnicodeTables) (item : Item) : Bytes :=
  utf8Encode (preprocessText U (ToLower U item.Content))

/-- The first part of the body of the loop of `matchItems`, up to the
computation of the similarity: the file system afterwards and the embedding
of the item, or no embedding when the loop continues with the next item. -/
def obtainEmbedding {F D : Type} (U : UnicodeTables) (L : Llama F) (os : OS) (fl : FloatOps F D)
    (fs : FS) (item : Item) : Option (FS × Option (List F)) :=
  let maxTokens : Int := (L.NCtx : Int) - 10
  let itemText := itemText U item
  match loadCachedEmbedding os fl fs itemText with
  | none => none
  | some (itemEmbed, true) => some (fs, some itemEmbed)
  | some (_, false) =>
    let maxChars := maxTokens * 3
    match truncateText itemText maxChars with
    | none => none
    | some itemText =>
      if L.InitFromModel itemText = false then some (fs, none)
      else
        match getEmbedding L fl itemText with
        | .error _ => some (fs, none)
        | .ok itemEmbed => some ((saveCachedEmbedding os fl fs itemText itemEmbed).1, some itemEmbed)

/-- The loop of `matchItems`, from the file system `fs` and the matches found
so far. -/
def matchItemsLoop {F D : Type} (U : UnicodeTables) (L : Llama F) (os : OS) (fl : FloatOps F D)
    (promptEmbed : List F) (threshold : F) :
    FS → List (Match F) → List Item → Option (FS × List (Match F))
  | fs, matched, [] => some (fs, matched)
  | fs, matched, item :: rest =>
    match obtainEmbedding U L os fl fs item with
    | none => none
    | some (fs1, none) => matchItemsLoop U L os fl promptEmbed threshold fs1 matched rest
    | some (fs1, some itemEmbed) =>
      match cosineSimilarity fl promptEmbed itemEmbed with
      | none => none
      | some similarity =>
        if fl.ge similarity threshold then
          matchItemsLoop U L os fl promptEmbed threshold fs1
            (matched ++ [⟨item.Name, item.Path, similarity, item.Priority, item.ItemType⟩]) rest
        else matchItemsLoop U L os fl promptEmbed threshold fs1 matched rest

/-- The function `matchItems`: the file system afterwards and the matches. -/
def matchItems {F D : Type} (U : UnicodeTables) (L : Llama F) (os : OS) (fl : FloatOps F D)
    (promptEmbed : List F) (items : List Item) (threshold : F) (fs : FS) :
    Option (FS × List (Match F)) :=
  matchItemsLoop U L os fl promptEmbed threshold fs [] items

/-! ## Concrete instances used to evaluate the definitions -/

/-- Exact arithmetic on integers in place of the floating-point operations; the
bit pattern of a number is the number itself. -/
def intOps : FloatOps Int Int where
  zero := 0
  add := fun a b => a + b
  mul := fun a b => a * b
  ge := fun a b => decide (a ≥ b)
  Float32bits := Int.toNat
  Float32frombits := Int.ofNat
  toFloat64 := id
  toFloat32 := id
  zero64 := 0
  one64 := 1
  add64 := fun a b => a + b
  div64 := fun a b => a / b
  Sqrt := fun a => Int.ofNat (Nat.sqrt a.toNat)

/-- A model that embeds every text as the vector `(1, 0, 0)`, with a context
of `nCtx` tokens. -/
def constLlama (nCtx : Nat) : Llama Int where
  NCtx := nCtx
  InitFromModel := fun _ => true
  Tokenize := fun _ => 3
  Encode := fun _ => 0
  GetEmbeddingsSeq := fun _ => [1, 0, 0]

/-- An operating system whose writes succeed, with the cache under `/c`, and a
stand-in for the hash function: the length of the text in two bytes, then its
first 30 bytes. -/
def plainOS : OS where
  Sum256 := fun b => b.length % 256 :: b.length / 256 % 256 :: b.take 30
  cacheDir := "/c".toList
  writeFails := fun _ => false

/-- An item with a short text. -/
def helloItem : Item :=
  ⟨"a".toList, "/p".toList, "Hello world".toList, "high".toList, "skill".toList⟩

/-- An item whose text is one word of 1507 letters, one byte more than three
times the 502 tokens left of a context of 512. -/
def longItem : Item :=
  ⟨"long".toList, "/skills/long.md".toList, List.replicate 1507 'x', "medium".toList,
    "skill".toList⟩

/-! ## Metadata of an item -/

/-- The call `strings.TrimPrefix(s, pre)`. -/
def TrimPrefix (s pre : Str) : Str := if HasPrefix s pre then s.drop pre.length else s

/-- The call `strings.Trim(s, cutset)`: leading and trailing runes contained in
`cutset` are removed. -/
def Trim (s cutset : Str) : Str :=
  ((s.dropWhile cutset.contains).reverse.dropWhile cutset.contains).reverse

/-- The call `strings.Contains(s, substr)`. -/
def Contains (s substr : Str) : Bool := s.tails.any (fun t => substr.isPrefixOf t)

/-- The value that `extractMetadata` reads from a trimmed line that begins
with `key`: the rest of the line, trimmed, without surrounding quotes. -/
def fieldValue (line key : Str) : Str :=
  Trim (TrimSpace (TrimPrefix line key)) "\"'".toList

/-- The assignment `extractMetadata` makes for one key on one trimmed line:
the value of the line when the line begins with `key` and the value is not
empty, else the value held so far. -/
def updateField (line key current : Str) : Str :=
  if HasPrefix line key then
    (if fieldValue line key ≠ [] then fieldValue line key else current)
  else current

/-- Loop of `extractMetadata` over `lines[1:]`, on the variables `name`,
`priority` and `itemType`; it ends at the first line that is `---` after
trimming. -/
def metadataLoop : Str × Str × Str → List Str → Str × Str × Str
  | vars, [] => vars
  | (name, priority, itemType), l :: rest =>
    let line := TrimSpace l
    if line = "---".toList then (name, priority, itemType)
    else
      metadataLoop
        (updateField line "name:".toList name, updateField line "priority:".toList priority,
          updateField line "type:".toList itemType) rest

/-- The function `extractMetadata`: name, priority and type.  The parameter
`Abs` is `filepath.Abs`, with `none` for an error. -/
def extractMetadata (Abs : Str → Option Str) (content path : Str) : Str × Str × Str :=
  let vars : Str × Str × Str :=
    match Split content '\n' with
    | [] => ([], "medium".toList, [])
    | l0 :: rest =>
      if HasPrefix l0 "---".toList then metadataLoop ([], "medium".toList, []) rest
      else ([], "medium".toList, [])
  let name :=
    if vars.1 = [] then
      (match Abs path with
       | some absPath => absPath
       | none => path)
    else vars.1
  let itemType :=
    if vars.2.2 = [] then
      (if Contains path "/agents/".toList || Contains path "\\agents\\".toList then
        "agent".toList
      else if Contains path "/skills/".toList || Contains path "\\skills\\".toList then
        "skill".toList
      else "skill".toList)
    else vars.2.2
  (name, vars.2.1, itemType)

/-- The value of the last line of `fm` that, trimmed, begins with `key` and
carries a non-empty value. -/
def lastValue (key : Str) (fm : List Str) : Option Str :=
  (fm.filterMap (fun l =>
    if HasPrefix (TrimSpace l) key ∧ fieldValue (TrimSpace l) key ≠ [] then
      some (fieldValue (TrimSpace l) key)
    else none)).getLast?

/-! ## The report buckets -/

/-- A Go `map[string][]string`; a key that is absent holds the nil slice. -/
abbrev PriorityMap := Str → List Str

/-- The priority under which `outputWithTemplate` files a match: its priority
in lower case, replaced by `medium` when it is none of the four. -/
def bucketPriority (U : UnicodeTables) (matchPriority : Str) : Str :=
  let priority := ToLower U matchPriority
  if priority ≠ "critical".toList ∧ priority ≠ "high".toList ∧ priority ≠ "medium".toList ∧
      priority ≠ "low".toList then "medium".toList
  else priority

/-- The first loop of `outputWithTemplate`, on the maps `skillsByPriority` and
`agentsByPriority`. -/
def bucketLoop {F : Type} (U : UnicodeTables) :
    PriorityMap × PriorityMap → List (Match F) → PriorityMap × PriorityMap
  | maps, [] => maps
  | (skillsByPriority, agentsByPriority), m :: rest =>
    let priority := bucketPriority U m.Priority
    if m.ItemType = "agent".toList then
      bucketLoop U (skillsByPriority,
        Function.update agentsByPriority priority (agentsByPriority priority ++ [m.Name])) rest
    else
      bucketLoop U (Function.update skillsByPriority priority
        (skillsByPriority priority ++ [m.Name]), agentsByPriority) rest

/-- The maps `skillsByPriority` and `agentsByPriority` of `outputWithTemplate`
after its first loop: both start with the four keys holding empty slices. -/
def bucketMatches {F : Type} (U : UnicodeTables) (matched : List (Match F)) :
    PriorityMap × PriorityMap :=
  bucketLoop U (fun _ => [], fun _ => []) matched

/-- A match is assigned to the bucket `key` of the skills: it is not an agent
and is filed under `key`. -/
def inSkillBucket {F : Type} (U : UnicodeTables) (key : Str) (m : Match F) : Bool :=
  decide (m.ItemType ≠ "agent".toList) && decide (bucketPriority U m.Priority = key)

/-- A match is assigned to the bucket `key` of the agents: it is an agent and
is filed under `key`. -/
def inAgentBucket {F : Type} (U : UnicodeTables) (key : Str) (m : Match F) : Bool :=
  decide (m.ItemType = "agent".toList) && decide (bucketPriority U m.Priority = key)

/-- The four keys of the maps. -/
def priorityKeys : List Str :=
  ["critical".toList, "high".toList, "medium".toList, "low".toList]

/-- Values of an arithmetic with the special values of floating point: the
integers, the two infinities and not-a-number. -/
inductive XNum where
  | fin (n : Int)
  | inf
  | ninf
  | nan
deriving DecidableEq

/-- Addition: an infinity absorbs the integers, and `inf + ninf` is `nan`. -/
def XNum.add : XNum → XNum → XNum
  | .nan, _ => .nan
  | _, .nan => .nan
  | .inf, .ninf => .nan
  | .ninf, .inf => .nan
  | .inf, _ => .inf
  | _, .inf => .inf
  | .ninf, _ => .ninf
  | _, .ninf => .ninf
  | .fin a, .fin b => .fin (a + b)

/-- The infinity with the sign of `a` times the sign given by `positive`; `nan`
for `a = 0`. -/
def XNum.signedInf (a : Int) (positive : Bool) : XNum :=
  if a = 0 then .nan
  else if decide (0 < a) = positive then .inf
  else .ninf

/-- Multiplication: `0 * inf` is `nan`. -/
def XNum.mul : XNum → XNum → XNum
  | .nan, _ => .nan
  | _, .nan => .nan
  | .fin a, .fin b => .fin (a * b)
  | .fin a, .inf => XNum.signedInf a true
  | .inf, .fin a => XNum.signedInf a true
  | .fin a, .ninf => XNum.signedInf a false
  | .ninf, .fin a => XNum.signedInf a false
  | .inf, .inf => .inf
  | .ninf, .ninf => .inf
  | .inf, .ninf => .ninf
  | .ninf, .inf => .ninf

/-- Division: `a / 0` is an infinity for `a ≠ 0` and `nan` for `a = 0`; the
quotient of two integers is rounded. -/
def XNum.div : XNum → XNum → XNum
  | .nan, _ => .nan
  | _, .nan => .nan
  | .fin a, .fin b => if b = 0 then XNum.signedInf a true else .fin (a / b)
  | .fin _, .inf => .fin 0
  | .fin _, .ninf => .fin 0
  | .inf, .fin b => if 0 ≤ b then .inf else .ninf
  | .ninf, .fin b => if 0 ≤ b then .ninf else .inf
  | .inf, .inf => .nan
  | .inf, .ninf => .nan
  | .ninf, .inf => .nan
  | .ninf, .ninf => .nan

/-- Comparison `a >= b`: false whenever an operand is `nan`. -/
def XNum.ge : XNum → XNum → Bool
  | .nan, _ => false
  | _, .nan => false
  | .fin a, .fin b => decide (b ≤ a)
  | .inf, _ => true
  | _, .ninf => true
  | .ninf, _ => false
  | .fin _, .inf => false

/-- Square root, rounded down on the integers. -/
def XNum.sqrt : XNum → XNum
  | .fin n => if n < 0 then .nan else .fin (Int.ofNat (Nat.sqrt n.toNat))
  | .inf => .inf
  | .ninf => .nan
  | .nan => .nan

/-- Bit pattern of a value: those of `float32` for the special values. -/
def XNum.bits : XNum → Nat
  | .fin n => n.toNat % 0x7F800000
  | .inf => 0x7F800000
  | .ninf => 0xFF800000
  | .nan => 0x7FC00000

/-- Value of a bit pattern. -/
def XNum.frombits (w : Nat) : XNum :=
  if w = 0x7F800000 then .inf
  else if w = 0xFF800000 then .ninf
  else if w = 0x7FC00000 then .nan
  else .fin (Int.ofNat w)

/-- Exact arithmetic on integers with the special values of floating point, in
place of the floating-point operations. -/
def xOps : FloatOps XNum XNum where
  zero := .fin 0
  add := XNum.add
  mul := XNum.mul
  ge := XNum.ge
  Float32bits := XNum.bits
  Float32frombits := XNum.frombits
  toFloat64 := id
  toFloat32 := id
  zero64 := .fin 0
  one64 := .fin 1
  add64 := XNum.add
  div64 := XNum.div
  Sqrt := XNum.sqrt

/-- A model whose raw embedding of every text is the zero vector. -/
def zeroLlama : Llama XNum where
  NCtx := 512
  InitFromModel := fun _ => true
  Tokenize := fun _ => 3
  Encode := fun _ => 0
  GetEmbeddingsSeq := fun _ => List.replicate 3 (.fin 0)

/-- A model whose context cannot be created. -/
def failingLlama : Llama Int where
  NCtx := 512
  InitFromModel := fun _ => false
  Tokenize := fun _ => 3
  Encode := fun _ => 0
  GetEmbeddingsSeq := fun _ => [1, 0, 0]

/-- The Euclidean norm as `getEmbedding` computes it: the square root, in
`float64`, of the sum of the squares `float64(v * v)`. -/
def rawNorm {F D : Type} (fl : FloatOps F D) (vec : List F) : D :=
  fl.Sqrt (vec.foldl (fun sum v => fl.add64 sum (fl.toFloat64 (fl.mul v v))) fl.zero64)

/-- The match that `matchItems` appends for an item and its similarity. -/
def matchOf {F : Type} (item : Item) (similarity : F) : Match F :=
  ⟨item.Name, item.Path, similarity, item.Priority, item.ItemType⟩

/-! ## Lemmas on the string functions -/

theorem splitAux_no_sep (sep : Char) (s cur : Str) (h : sep ∉ s) :
    splitAux sep cur s = [cur ++ s] := by
  induction s generalizing cur with
  | nil => simp [splitAux]
  | cons c cs ih =>
    have hc : c ≠ sep := fun e => h (by simp [e])
    have hcs : sep ∉ cs := fun e => h (by simp [e])
    simp [splitAux, hc, ih _ hcs]

theorem findClosing_append (pre : List Str) (c : Str) (post : List Str)
    (hpre : ∀ l ∈ pre, TrimSpace l ≠ "---".toList) (hc : TrimSpace c = "---".toList) :
    findClosing (pre ++ c :: post) = some post := by
  induction pre with
  | nil => show findClosing (c :: post) = some post; rw [findClosing, if_pos hc]
  | cons l ls ih =>
    have hl : TrimSpace l ≠ "---".toList := hpre l (by simp)
    have hls : ∀ l ∈ ls, TrimSpace l ≠ "---".toList := fun x hx => hpre x (by simp [hx])
    show findClosing (l :: (ls ++ c :: post)) = some post
    rw [findClosing, if_neg hl]; exact ih hls


theorem endsInRun_concat (f : Bool) (a : Str) (x : Char) :
    endsInRun f (a ++ [x]) = reSpace x := by
  induction a generalizing f with
  | nil => rfl
  | cons c cs ih => exact ih _

theorem endsInRun_of_getLast (a : Str) (h : ∀ x ∈ a.getLast?, reSpace x = false) :
    endsInRun false a = false := by
  rcases List.eq_nil_or_concat a with rfl | ⟨l, x, rfl⟩
  · rfl
  · rw [List.concat_eq_append] at h ⊢
    rw [endsInRun_concat]; exact h x (by simp)

theorem replaceSpaceRuns_append (f : Bool) (a b : Str) :
    replaceSpaceRuns f (a ++ b) = replaceSpaceRuns f a ++ replaceSpaceRuns (endsInRun f a) b := by
  induction a generalizing f with
  | nil => simp [replaceSpaceRuns, endsInRun]
  | cons c cs ih =>
    by_cases hc : reSpace c = true
    · cases f <;> simp [replaceSpaceRuns, hc, ih, endsInRun]
    · simp only [Bool.not_eq_true] at hc
      simp [replaceSpaceRuns, hc, ih, endsInRun]

theorem replaceSpaceRuns_run (run : Str) (hrun : ∀ c ∈ run, reSpace c = true) :
    replaceSpaceRuns true run = [] := by
  induction run with
  | nil => simp [replaceSpaceRuns]
  | cons c cs ih =>
    have hc : reSpace c = true := hrun c (by simp)
    simp [replaceSpaceRuns, hc, ih (fun x hx => hrun x (by simp [hx]))]

theorem replaceSpaceRuns_flag (f : Bool) (b : Str) (hb : ∀ c ∈ b.head?, reSpace c = false) :
    replaceSpaceRuns f b = replaceSpaceRuns false b := by
  cases b with
  | nil => simp [replaceSpaceRuns]
  | cons c cs =>
    have hc : reSpace c = false := hb c (by simp)
    simp [replaceSpaceRuns, hc]

theorem replaceSpaceRuns_word (f : Bool) (w : Str) (hw : ∀ c ∈ w, reSpace c = false) :
    replaceSpaceRuns f w = w := by
  induction w generalizing f with
  | nil => simp [replaceSpaceRuns]
  | cons c cs ih =>
    have hc : reSpace c = false := hw c (by simp)
    simp [replaceSpaceRuns, hc, ih false (fun x hx => hw x (by simp [hx]))]

theorem replaceSpaceRuns_filter (f : Bool) (s : Str) :
    (replaceSpaceRuns f s).filter (fun c => !reSpace c) = s.filter (fun c => !reSpace c) := by
  induction s generalizing f with
  | nil => simp [replaceSpaceRuns]
  | cons c cs ih =>
    by_cases hc : reSpace c = true
    · have hsp : reSpace ' ' = true := by decide
      cases f <;> simp [replaceSpaceRuns, hc, ih, hsp]
    · simp only [Bool.not_eq_true] at hc
      simp [replaceSpaceRuns, hc, ih]

theorem replaceSpaceRuns_mem (f : Bool) (s : Str) :
    ∀ c ∈ replaceSpaceRuns f s, reSpace c = true → c = ' ' := by
  induction s generalizing f with
  | nil => simp [replaceSpaceRuns]
  | cons d ds ih =>
    intro c hc hsp
    by_cases hd : reSpace d = true
    · cases f <;> simp [replaceSpaceRuns, hd] at hc
      · rcases hc with rfl | hc
        · rfl
        · exact ih true c hc hsp
      · exact ih true c hc hsp
    · simp only [Bool.not_eq_true] at hd
      simp [replaceSpaceRuns, hd] at hc
      rcases hc with rfl | hc
      · rw [hd] at hsp; cases hsp
      · exact ih false c hc hsp

theorem replaceSpaceRuns_chain (f : Bool) (s : Str) :
    List.Chain' (fun x y => ¬ (x = ' ' ∧ y = ' ')) (replaceSpaceRuns f s) ∧
      (f = true → ∀ x ∈ (replaceSpaceRuns f s).head?, x ≠ ' ') := by
  induction s generalizing f with
  | nil => simp [replaceSpaceRuns]
  | cons d ds ih =>
    by_cases hd : reSpace d = true
    · cases f
      · simp only [replaceSpaceRuns, hd, if_true, Bool.false_eq_true, if_false]
        refine ⟨?_, by simp⟩
        rw [List.chain'_cons']
        exact ⟨fun y hy h => (ih true).2 rfl y hy h.2, (ih true).1⟩
      · simp only [replaceSpaceRuns, hd, if_true]
        exact ⟨(ih true).1, fun _ => (ih true).2 rfl⟩
    · simp only [Bool.not_eq_true] at hd
      have hne : d ≠ ' ' := by
        intro e; rw [e] at hd; revert hd; decide
      simp only [replaceSpaceRuns, hd, Bool.false_eq_true, if_false]
      refine ⟨?_, ?_⟩
      · rw [List.chain'_cons']
        exact ⟨fun y _ h => hne h.1, (ih false).1⟩
      · intro _ x hx
        simp at hx
        rw [← hx]; exact hne

/-! ## Lemmas on runes -/

theorem isSeparator_of_reSpace (U : UnicodeTables) (r : Char) (h : reSpace r = true) :
    isSeparator U r = true := by
  simp only [reSpace, Bool.or_eq_true, beq_iff_eq] at h
  have h255 : r.toNat ≤ 0xFF := by omega
  simp only [isSeparator, IsLetter, IsNumber, h255, if_true]
  rcases h with (((h | h) | h) | h) | h <;> rw [h] <;> decide

theorem isSeparator_of_IsSpace (U : UnicodeTables) (hU : U.SpaceFree) (r : Char)
    (h : IsSpace r = true) : isSeparator U r = true := by
  by_cases h255 : r.toNat ≤ 0xFF
  · have h' := h
    simp only [IsSpace, h255, if_true, Bool.or_eq_true, beq_iff_eq] at h'
    simp only [isSeparator, IsLetter, IsNumber, h255, if_true]
    rcases h' with ((((((h' | h') | h') | h') | h') | h') | h') | h' <;> rw [h'] <;> decide
  · have := hU r h
    simp [isSeparator, IsLetter, IsNumber, h255, this.1, this.2]

theorem reSpace_of_word (U : UnicodeTables) (r : Char) (h : isSeparator U r = false) :
    reSpace r = false := by
  cases hr : reSpace r with
  | false => rfl
  | true => rw [isSeparator_of_reSpace U r hr] at h; cases h

theorem IsSpace_of_word (U : UnicodeTables) (hU : U.SpaceFree) (r : Char)
    (h : isSeparator U r = false) : IsSpace r = false := by
  cases hr : IsSpace r with
  | false => rfl
  | true => rw [isSeparator_of_IsSpace U hU r hr] at h; cases h

/-! ## Lemmas on lists of words joined by one space -/


theorem WordList.tail {U : UnicodeTables} {t : Str} {ts : List Str} (h : WordList U (t :: ts)) :
    WordList U ts := fun x hx => h x (by simp [hx])

theorem Join_cons_cons (a b : Str) (rest : List Str) (sep : Str) :
    Join (a :: b :: rest) sep = a ++ sep ++ Join (b :: rest) sep := rfl

theorem fieldsAux_word (f : Char → Bool) (cur w rest : Str) (hw : ∀ c ∈ w, f c = false) :
    fieldsAux f cur (w ++ rest) = fieldsAux f (cur ++ w) rest := by
  induction w generalizing cur with
  | nil => simp
  | cons c cs ih =>
    have hc : f c = false := hw c (by simp)
    show fieldsAux f cur (c :: (cs ++ rest)) = _
    rw [fieldsAux]
    simp only [hc, Bool.false_eq_true, if_false]
    rw [ih _ (fun x hx => hw x (by simp [hx]))]
    simp

theorem fieldsAux_fields (f : Char → Bool) (s cur : Str) (hcur : ∀ c ∈ cur, f c = false) :
    ∀ w ∈ fieldsAux f cur s, w ≠ [] ∧ ∀ c ∈ w, f c = false := by
  induction s generalizing cur with
  | nil =>
    intro w hw
    cases cur with
    | nil => simp [fieldsAux] at hw
    | cons a as =>
      simp [fieldsAux] at hw
      subst hw
      exact ⟨by simp, hcur⟩
  | cons c cs ih =>
    intro w hw
    by_cases hc : f c = true
    · cases cur with
      | nil =>
        simp only [fieldsAux, hc, if_true, List.isEmpty_nil] at hw
        exact ih [] (by simp) w hw
      | cons a as =>
        simp only [fieldsAux, hc, if_true, List.isEmpty_cons, Bool.false_eq_true, if_false,
          List.mem_cons] at hw
        rcases hw with rfl | hw
        · exact ⟨by simp, hcur⟩
        · exact ih [] (by simp) w hw
    · simp only [Bool.not_eq_true] at hc
      simp only [fieldsAux, hc, Bool.false_eq_true, if_false] at hw
      refine ih (cur ++ [c]) ?_ w hw
      intro x hx
      simp only [List.mem_append, List.mem_singleton] at hx
      rcases hx with hx | rfl
      · exact hcur x hx
      · exact hc

theorem fieldsAux_Join (U : UnicodeTables) (ts : List Str) (h : WordList U ts) :
    fieldsAux (isSeparator U) [] (Join ts " ".toList) = ts := by
  induction ts with
  | nil => rfl
  | cons t rest ih =>
    have ht := h t (by simp)
    cases rest with
    | nil =>
      have := fieldsAux_word (isSeparator U) [] t [] ht.2
      simp only [List.append_nil, List.nil_append] at this
      show fieldsAux (isSeparator U) [] t = [t]
      rw [this]
      cases t with
      | nil => exact absurd rfl ht.1
      | cons a as => simp [fieldsAux]
    | cons b rest =>
      rw [Join_cons_cons, List.append_assoc, fieldsAux_word _ _ _ _ ht.2]
      have hsp : isSeparator U ' ' = true := isSeparator_of_reSpace U ' ' (by decide)
      cases t with
      | nil => exact absurd rfl ht.1
      | cons a as =>
        show fieldsAux (isSeparator U) ([] ++ a :: as) (' ' :: Join (b :: rest) " ".toList) = _
        simp only [List.nil_append, fieldsAux, hsp, if_true, List.isEmpty_cons,
          Bool.false_eq_true, if_false]
        rw [ih h.tail]

theorem Join_mem (U : UnicodeTables) (ts : List Str) (h : WordList U ts) :
    ∀ c ∈ Join ts " ".toList, isSeparator U c = false ∨ c = ' ' := by
  induction ts with
  | nil => simp [Join]
  | cons t rest ih =>
    have ht := h t (by simp)
    cases rest with
    | nil => intro c hc; exact Or.inl (ht.2 c hc)
    | cons b rest =>
      intro c hc
      rw [Join_cons_cons] at hc
      simp only [List.mem_append] at hc
      rcases hc with (hc | hc) | hc
      · exact Or.inl (ht.2 c hc)
      · right; simpa using hc
      · exact ih h.tail c hc

theorem Join_head (U : UnicodeTables) (ts : List Str) (h : WordList U ts) :
    ∀ x ∈ (Join ts " ".toList).head?, isSeparator U x = false := by
  cases ts with
  | nil => simp [Join]
  | cons t rest =>
    have ht := h t (by simp)
    cases t with
    | nil => exact absurd rfl ht.1
    | cons a as =>
      intro x hx
      cases rest with
      | nil =>
        simp only [Join, List.head?_cons, Option.mem_def, Option.some.injEq] at hx
        exact hx ▸ ht.2 a (by simp)
      | cons b rest =>
        simp only [Join_cons_cons, List.cons_append, List.head?_cons, Option.mem_def,
          Option.some.injEq] at hx
        exact hx ▸ ht.2 a (by simp)

theorem Join_getLast (U : UnicodeTables) (ts : List Str) (h : WordList U ts) :
    ∀ x ∈ (Join ts " ".toList).getLast?, isSeparator U x = false := by
  induction ts with
  | nil => simp [Join]
  | cons t rest ih =>
    have ht := h t (by simp)
    cases rest with
    | nil =>
      intro x hx
      exact ht.2 x (List.mem_of_mem_getLast? hx)
    | cons b rest =>
      intro x hx
      have hne : Join (b :: rest) " ".toList ≠ [] := by
        have hb := (h b (by simp)).1
        cases rest with
        | nil => exact hb
        | cons b2 rest2 =>
          rw [Join_cons_cons]
          intro e
          simp only [List.append_eq_nil] at e
          exact hb e.1.1
      rw [Join_cons_cons, List.getLast?_append_of_ne_nil _ hne] at hx
      exact ih h.tail x hx

theorem splitAux_ne_nil (sep : Char) (s cur : Str) : splitAux sep cur s ≠ [] := by
  induction s generalizing cur with
  | nil => simp [splitAux]
  | cons c cs ih =>
    by_cases hc : c = sep
    · simp [splitAux, hc]
    · simp only [splitAux, hc, if_false]
      exact ih _

theorem Join_splitAux (s cur : Str) :
    Join (splitAux '\n' cur s) "\n".toList = cur ++ s := by
  induction s generalizing cur with
  | nil => simp [splitAux, Join]
  | cons c cs ih =>
    by_cases hc : c = '\n'
    · subst hc
      simp only [splitAux, if_true]
      have := ih []
      cases h : splitAux '\n' [] cs with
      | nil => exact absurd h (splitAux_ne_nil _ _ _)
      | cons a rest =>
        rw [h] at this
        show Join (cur :: a :: rest) "\n".toList = _
        rw [Join, this]
        simp
    · simp only [splitAux, hc, if_false]
      rw [ih]; simp

/-- Every text is its lines joined by newlines. -/
theorem Join_Split (s : Str) : Join (Split s '\n') "\n".toList = s :=
  Join_splitAux s []

theorem dropWhile_of_head (p : Char → Bool) (l : Str) (h : ∀ x ∈ l.head?, p x = false) :
    l.dropWhile p = l := by
  cases l with
  | nil => rfl
  | cons a as =>
    have ha : p a = false := h a (by simp)
    simp [List.dropWhile, ha]

theorem TrimSpace_of_ends (s : Str) (hh : ∀ x ∈ s.head?, IsSpace x = false)
    (hl : ∀ x ∈ s.getLast?, IsSpace x = false) : TrimSpace s = s := by
  unfold TrimSpace
  rw [dropWhile_of_head IsSpace s hh, dropWhile_of_head IsSpace s.reverse, List.reverse_reverse]
  intro x hx
  rw [List.head?_reverse] at hx
  exact hl x hx

theorem replaceSpaceRuns_Join (U : UnicodeTables) (ts : List Str) (h : WordList U ts) :
    replaceSpaceRuns false (Join ts " ".toList) = Join ts " ".toList := by
  induction ts with
  | nil => rfl
  | cons t rest ih =>
    have ht := h t (by simp)
    have htw : ∀ c ∈ t, reSpace c = false := fun c hc => reSpace_of_word U c (ht.2 c hc)
    cases rest with
    | nil => exact replaceSpaceRuns_word false t htw
    | cons b rest =>
      have hend : endsInRun false t = false :=
        endsInRun_of_getLast t (fun x hx => htw x (List.mem_of_mem_getLast? hx))
      have hhead : ∀ x ∈ (Join (b :: rest) " ".toList).head?, reSpace x = false :=
        fun x hx => reSpace_of_word U x (Join_head U _ h.tail x hx)
      rw [Join_cons_cons, List.append_assoc, replaceSpaceRuns_append, hend,
        replaceSpaceRuns_word false t htw]
      show t ++ replaceSpaceRuns false (' ' :: Join (b :: rest) " ".toList) = _
      rw [replaceSpaceRuns]
      have hsp : reSpace ' ' = true := by decide
      simp only [hsp, if_true, Bool.false_eq_true, if_false]
      rw [replaceSpaceRuns_flag true _ hhead, ih h.tail]
      rfl

theorem stripFrontmatter_Join (U : UnicodeTables) (ts : List Str) (h : WordList U ts) :
    stripFrontmatter (Join ts " ".toList) = Join ts " ".toList := by
  have hnl : '\n' ∉ Join ts " ".toList := by
    intro hmem
    rcases Join_mem U ts h _ hmem with h1 | h1
    · rw [isSeparator_of_reSpace U '\n' (by decide)] at h1; cases h1
    · revert h1; decide
  unfold stripFrontmatter Split
  rw [splitAux_no_sep _ _ _ hnl]
  simp only [findClosing]
  split <;> rfl

theorem removeStopWords_Join (U : UnicodeTables) (ts : List Str) (h : WordList U ts)
    (hk : ∀ t ∈ ts, keepWord U t = true) :
    removeStopWords U (Join ts " ".toList) = Join ts " ".toList := by
  unfold removeStopWords FieldsFunc
  simp only []
  rw [fieldsAux_Join U ts h, List.filter_eq_self.2 hk]

theorem TrimSpace_Join (U : UnicodeTables) (hU : U.SpaceFree) (ts : List Str)
    (h : WordList U ts) : TrimSpace (Join ts " ".toList) = Join ts " ".toList :=
  TrimSpace_of_ends _ (fun x hx => IsSpace_of_word U hU x (Join_head U ts h x hx))
    (fun x hx => IsSpace_of_word U hU x (Join_getLast U ts h x hx))

theorem removeStopWords_shape (U : UnicodeTables) (text : Str) :
    ∃ ts, WordList U ts ∧ (∀ t ∈ ts, keepWord U t = true) ∧
      removeStopWords U text = Join ts " ".toList := by
  refine ⟨(FieldsFunc text (isSeparator U)).filter (keepWord U), ?_, ?_, rfl⟩
  · intro t ht
    exact fieldsAux_fields (isSeparator U) text [] (by simp) t (List.mem_of_mem_filter ht)
  · intro t ht
    exact (List.mem_filter.1 ht).2

theorem preprocessText_shape (U : UnicodeTables) (hU : U.SpaceFree) (text : Str) :
    ∃ ts, WordList U ts ∧ (∀ t ∈ ts, keepWord U t = true) ∧
      preprocessText U text = Join ts " ".toList := by
  obtain ⟨ts, h1, h2, h3⟩ := removeStopWords_shape U (normalizeWhitespace (stripFrontmatter text))
  refine ⟨ts, h1, h2, ?_⟩
  unfold preprocessText
  rw [h3, TrimSpace_Join U hU ts h1]

theorem latin1Tables_spaceFree : latin1Tables.SpaceFree := fun _ _ => ⟨rfl, rfl⟩


/-! ## Lemmas on the cache encoding -/

theorem pack_bytes (b0 b1 b2 b3 : Nat) (h0 : b0 < 256) (h1 : b1 < 256) (h2 : b2 < 256) :
    b0 ||| b1 <<< 8 ||| b2 <<< 16 ||| b3 <<< 24 =
      b0 + 256 * b1 + 65536 * b2 + 16777216 * b3 := by
  have e1 : b0 ||| b1 <<< 8 = b0 + 256 * b1 := by
    rw [Nat.shiftLeft_eq, Nat.or_comm, Nat.mul_comm b1]
    have := Nat.mul_add_lt_is_or (i := 8) (b := b0) (by omega) b1
    rw [← this]; omega
  have e2 : (b0 + 256 * b1) ||| b2 <<< 16 = b0 + 256 * b1 + 65536 * b2 := by
    rw [Nat.shiftLeft_eq, Nat.or_comm, Nat.mul_comm b2]
    have := Nat.mul_add_lt_is_or (i := 16) (b := b0 + 256 * b1) (by omega) b2
    rw [← this]; omega
  have e3 : (b0 + 256 * b1 + 65536 * b2) ||| b3 <<< 24 =
      b0 + 256 * b1 + 65536 * b2 + 16777216 * b3 := by
    rw [Nat.shiftLeft_eq, Nat.or_comm, Nat.mul_comm b3]
    have := Nat.mul_add_lt_is_or (i := 24) (b := b0 + 256 * b1 + 65536 * b2) (by omega) b3
    rw [← this]; omega
  rw [e1, e2, e3]

theorem decode_encodeWord (w : Nat) (hw : w < 2 ^ 32) :
    (w % 256 ||| ((w >>> 8) % 256) <<< 8 ||| ((w >>> 16) % 256) <<< 16 |||
      ((w >>> 24) % 256) <<< 24) % 2 ^ 32 = w := by
  rw [pack_bytes _ _ _ _ (Nat.mod_lt _ (by decide)) (Nat.mod_lt _ (by decide))
    (Nat.mod_lt _ (by decide))]
  simp only [Nat.shiftRight_eq_div_pow]
  norm_num at hw ⊢
  omega

theorem decodeWord_at (pre post : Bytes) (i w : Nat) (hpre : pre.length = i * 4)
    (hw : w < 2 ^ 32) : decodeWord (pre ++ (encodeWord w ++ post)) i = some w := by
  have g : ∀ k, (pre ++ (encodeWord w ++ post))[i * 4 + k]? = (encodeWord w ++ post)[k]? := by
    intro k
    rw [List.getElem?_append_right (by omega)]
    congr 1; omega
  have g0 := g 0
  rw [Nat.add_zero] at g0
  unfold decodeWord
  rw [g0, g 1, g 2, g 3]
  simp only [encodeWord, List.cons_append, List.getElem?_cons_zero, List.getElem?_cons_succ]
  rw [decode_encodeWord w hw]

theorem decodeLoop_encode {F D : Type} (fl : FloatOps F D) (ws : List Nat)
    (hws : ∀ w ∈ ws, w < 2 ^ 32) (pre : Bytes) (i : Nat) (hpre : pre.length = i * 4) :
    decodeLoop fl (pre ++ (ws.map encodeWord).flatten) ws.length i =
      some (ws.map fl.Float32frombits) := by
  induction ws generalizing pre i with
  | nil => rfl
  | cons w rest ih =>
    have hw : w < 2 ^ 32 := hws w (by simp)
    have hrest : ∀ x ∈ rest, x < 2 ^ 32 := fun x hx => hws x (by simp [hx])
    simp only [List.map_cons, List.flatten_cons, List.length_cons, decodeLoop]
    rw [decodeWord_at pre _ i w hpre hw]
    have := ih hrest (pre ++ encodeWord w) (i + 1) (by simp [encodeWord, hpre]; omega)
    rw [List.append_assoc] at this
    rw [this]

theorem length_encoded (ws : List Nat) : ((ws.map encodeWord).flatten).length = ws.length * 4 := by
  induction ws with
  | nil => rfl
  | cons w rest ih => simp [encodeWord, ih]; omega

theorem decodeLoop_total {F D : Type} (fl : FloatOps F D) (data : Bytes) (n i : Nat)
    (h : (i + n) * 4 ≤ data.length) :
    ∃ v, decodeLoop fl data n i = some v ∧ v.length = n := by
  induction n generalizing i with
  | zero => exact ⟨[], rfl, rfl⟩
  | succ n ih =>
    obtain ⟨v, hv, hlen⟩ := ih (i + 1) (by omega)
    have g : ∀ k, k < 4 → ∃ b, data[i * 4 + k]? = some b := by
      intro k hk
      exact ⟨data[i * 4 + k], List.getElem?_eq_getElem (by omega)⟩
    obtain ⟨b0, h0⟩ := g 0 (by omega)
    obtain ⟨b1, h1⟩ := g 1 (by omega)
    obtain ⟨b2, h2⟩ := g 2 (by omega)
    obtain ⟨b3, h3⟩ := g 3 (by omega)
    rw [Nat.add_zero] at h0
    refine ⟨fl.Float32frombits ((b0 ||| b1 <<< 8 ||| b2 <<< 16 ||| b3 <<< 24) % 2 ^ 32) :: v,
      ?_, by simp [hlen]⟩
    simp only [decodeLoop, decodeWord, h0, h1, h2, h3, hv]

theorem ReadFile_WriteFile (os : OS) (fs : FS) (name : Str) (data : Bytes)
    (h : (WriteFile os fs name data).2 = true) :
    ReadFile (WriteFile os fs name data).1 name = some data := by
  unfold WriteFile at h ⊢
  by_cases hf : os.writeFails name = true
  · simp [hf] at h
  · simp [hf, ReadFile, List.lookup]

theorem dotLoop_eq {F D : Type} (fl : FloatOps F D) (b a : List F) (i : Nat) (acc : F)
    (h : a.length + i ≤ b.length) :
    dotLoop fl b a i acc =
      some ((List.zip a (b.drop i)).foldl (fun acc p => fl.add acc (fl.mul p.1 p.2)) acc) := by
  induction a generalizing i acc with
  | nil => rfl
  | cons x rest ih =>
    have hi : i < b.length := by simp at h; omega
    have hd : b.drop i = b[i] :: b.drop (i + 1) := List.drop_eq_getElem_cons hi
    simp only [dotLoop, List.getElem?_eq_getElem hi]
    rw [ih (i + 1) _ (by simp at h; omega), hd]
    rfl

/-! ## Lemmas on the matching loop -/

theorem matchItemsLoop_acc {F D : Type} (U : UnicodeTables) (L : Llama F) (os : OS)
    (fl : FloatOps F D) (promptEmbed : List F) (threshold : F) (items : List Item) (fs : FS)
    (matched : List (Match F)) :
    matchItemsLoop U L os fl promptEmbed threshold fs matched items =
      (matchItemsLoop U L os fl promptEmbed threshold fs [] items).map
        (fun r => (r.1, matched ++ r.2)) := by
  induction items generalizing fs matched with
  | nil => simp [matchItemsLoop]
  | cons item rest ih =>
    simp only [matchItemsLoop]
    cases obtainEmbedding U L os fl fs item with
    | none => rfl
    | some r =>
      obtain ⟨fs1, e⟩ := r
      cases e with
      | none => exact ih fs1 matched
      | some itemEmbed =>
        simp only []
        cases cosineSimilarity fl promptEmbed itemEmbed with
        | none => rfl
        | some similarity =>
          simp only []
          by_cases hge : fl.ge similarity threshold = true
          · simp only [hge, if_true]
            rw [ih fs1 (matched ++ _), ih fs1 ([] ++ _)]
            simp [Option.map_map, Function.comp_def]
          · simp only [hge, Bool.false_eq_true, if_false]
            exact ih fs1 matched

theorem matchItemsLoop_append {F D : Type} (U : UnicodeTables) (L : Llama F) (os : OS)
    (fl : FloatOps F D) (promptEmbed : List F) (threshold : F) (xs ys : List Item) (fs : FS)
    (matched : List (Match F)) :
    matchItemsLoop U L os fl promptEmbed threshold fs matched (xs ++ ys) =
      (matchItemsLoop U L os fl promptEmbed threshold fs matched xs).bind
        (fun r => matchItemsLoop U L os fl promptEmbed threshold r.1 r.2 ys) := by
  induction xs generalizing fs matched with
  | nil => simp [matchItemsLoop]
  | cons item rest ih =>
    simp only [List.cons_append, matchItemsLoop]
    cases obtainEmbedding U L os fl fs item with
    | none => rfl
    | some r =>
      obtain ⟨fs1, e⟩ := r
      cases e with
      | none => exact ih fs1 matched
      | some itemEmbed =>
        simp only []
        cases cosineSimilarity fl promptEmbed itemEmbed with
        | none => rfl
        | some similarity =>
          simp only []
          by_cases hge : fl.ge similarity threshold = true
          · simp only [hge, if_true]
            exact ih fs1 _
          · simp only [hge, Bool.false_eq_true, if_false]
            exact ih fs1 matched

/-! ## Lemmas on cache files and on the text of `longItem` -/

theorem getCacheFile_inj (os : OS) (h1 h2 cacheType : Str)
    (h : getCacheFile os h1 cacheType = getCacheFile os h2 cacheType) : h1 = h2 := by
  unfold getCacheFile at h
  exact List.append_cancel_right (List.append_cancel_left h)

theorem ReadFile_filter_none (fs : FS) (p : Str × Bytes → Bool) (name : Str)
    (h : ReadFile fs name = none) : ReadFile (fs.filter p) name = none := by
  unfold ReadFile at h ⊢
  induction fs with
  | nil => rfl
  | cons e rest ih =>
    obtain ⟨k, d⟩ := e
    by_cases hk : name == k
    · simp [List.lookup, hk] at h
    · simp only [List.lookup, hk] at h
      by_cases hp : p (k, d) = true
      · rw [List.filter_cons_of_pos hp]
        simp only [List.lookup, hk]
        exact ih h
      · rw [List.filter_cons_of_neg hp]
        exact ih h

theorem ReadFile_WriteFile_other (os : OS) (fs : FS) (name other : Str) (data : Bytes)
    (hne : other ≠ name) (h : ReadFile fs other = none) :
    ReadFile (WriteFile os fs name data).1 other = none := by
  unfold WriteFile
  by_cases hf : os.writeFails name = true
  · simpa [hf] using h
  · simp only [hf, Bool.false_eq_true, if_false]
    have hk : (other == name) = false := by simpa using hne
    show List.lookup other ((name, data) :: _) = none
    simp only [List.lookup, hk]
    exact ReadFile_filter_none fs _ other h

theorem truncateText_long (t : Bytes) (n : Nat) (hn : 10 ≤ n) (hlong : (n - 10) * 3 < t.length) :
    truncateText t (((n : Int) - 10) * 3) = some (t.take ((n - 10) * 3)) := by
  have e : ((n : Int) - 10) * 3 = (((n - 10) * 3 : Nat) : Int) := by omega
  unfold truncateText
  rw [e]
  simp only [Int.toNat_ofNat]
  rw [if_pos (by omega), if_neg (by omega)]

theorem preprocessText_word (U : UnicodeTables) (hU : U.SpaceFree) (t : Str)
    (hw : WordList U [t]) (hk : keepWord U t = true) : preprocessText U t = t := by
  have hk' : ∀ x ∈ [t], keepWord U x = true := by simpa using hk
  have e : Join [t] " ".toList = t := rfl
  have h1 := stripFrontmatter_Join U [t] hw
  have h2 := replaceSpaceRuns_Join U [t] hw
  have h3 := removeStopWords_Join U [t] hw hk'
  have h4 := TrimSpace_Join U hU [t] hw
  rw [e] at h1 h2 h3 h4
  unfold preprocessText normalizeWhitespace
  rw [h1, h2, h3, h4]

theorem utf8Encode_replicate_x (n : Nat) :
    utf8Encode (List.replicate n 'x') = List.replicate n 120 := by
  induction n with
  | zero => rfl
  | succ n ih =>
    unfold utf8Encode at ih ⊢
    rw [List.replicate_succ, List.map_cons, List.flatten_cons, ih, List.replicate_succ]
    rfl

theorem itemText_replicate_x (n : Nat) (hn : 6 ≤ n) :
    utf8Encode (preprocessText latin1Tables (ToLower latin1Tables (List.replicate n 'x'))) =
      List.replicate n 120 := by
  have hlow : ToLower latin1Tables (List.replicate n 'x') = List.replicate n 'x' := by
    unfold ToLower
    rw [List.map_replicate]
    rfl
  have hw : WordList latin1Tables [List.replicate n 'x'] := by
    intro t ht
    simp only [List.mem_singleton] at ht
    subst ht
    refine ⟨?_, ?_⟩
    · intro e
      have := congrArg List.length e
      simp only [List.length_replicate, List.length_nil] at this
      omega
    · intro c hc
      rw [List.eq_of_mem_replicate hc]
      decide
  have hk : keepWord latin1Tables (List.replicate n 'x') = true := by
    unfold keepWord
    rw [hlow]
    have h1 : stopWords.contains (List.replicate n 'x') = false := by
      rw [Bool.eq_false_iff]
      intro hmem
      have hmem' : List.replicate n 'x' ∈ stopWords := by simpa using hmem
      have hlen : ∀ w ∈ stopWords, w.length ≤ 5 := by decide
      have := hlen _ hmem'
      simp only [List.length_replicate] at this
      omega
    have h2 : byteLen (List.replicate n 'x') = n := by
      unfold byteLen
      rw [utf8Encode_replicate_x, List.length_replicate]
    rw [h1, h2]
    simp only [Bool.not_false, Bool.true_and, decide_eq_true_eq]
    omega
  rw [hlow, preprocessText_word latin1Tables latin1Tables_spaceFree _ hw hk,
    utf8Encode_replicate_x]

theorem itemText_longItem : itemText latin1Tables longItem = List.replicate 1507 120 :=
  itemText_replicate_x 1507 (by omega)

/-! ## Lemmas on the report buckets -/

theorem inSkillBucket_iff {F : Type} (U : UnicodeTables) (key : Str) (m : Match F) :
    inSkillBucket U key m = true ↔
      m.ItemType ≠ "agent".toList ∧ bucketPriority U m.Priority = key := by
  unfold inSkillBucket
  rw [Bool.and_eq_true, decide_eq_true_eq, decide_eq_true_eq]

theorem inAgentBucket_iff {F : Type} (U : UnicodeTables) (key : Str) (m : Match F) :
    inAgentBucket U key m = true ↔
      m.ItemType = "agent".toList ∧ bucketPriority U m.Priority = key := by
  unfold inAgentBucket
  rw [Bool.and_eq_true, decide_eq_true_eq, decide_eq_true_eq]

theorem bucketLoop_eq {F : Type} (U : UnicodeTables) (matched : List (Match F))
    (skills agents : PriorityMap) (key : Str) :
    (bucketLoop U (skills, agents) matched).1 key =
        skills key ++ (matched.filter (inSkillBucket U key)).map Match.Name ∧
    (bucketLoop U (skills, agents) matched).2 key =
        agents key ++ (matched.filter (inAgentBucket U key)).map Match.Name := by
  induction matched generalizing skills agents with
  | nil => simp [bucketLoop]
  | cons m rest ih =>
    by_cases hagent : m.ItemType = "agent".toList
    · have hs : inSkillBucket U key m = false := by
        rw [Bool.eq_false_iff, Ne, inSkillBucket_iff]
        exact fun h => h.1 hagent
      rw [bucketLoop]
      simp only [if_pos hagent]
      rw [List.filter_cons_of_neg (p := inSkillBucket U key) (by simp [hs])]
      refine ⟨(ih _ _).1, ?_⟩
      rw [(ih _ _).2]
      by_cases hk : bucketPriority U m.Priority = key
      · have ha : inAgentBucket U key m = true := (inAgentBucket_iff U key m).2 ⟨hagent, hk⟩
        rw [List.filter_cons_of_pos (p := inAgentBucket U key) ha]
        subst hk
        rw [Function.update_same]
        simp
      · have ha : inAgentBucket U key m = false := by
          rw [Bool.eq_false_iff, Ne, inAgentBucket_iff]
          exact fun h => hk h.2
        rw [List.filter_cons_of_neg (p := inAgentBucket U key) (by simp [ha]),
          Function.update_noteq (fun e => hk e.symm)]
    · have ha : inAgentBucket U key m = false := by
        rw [Bool.eq_false_iff, Ne, inAgentBucket_iff]
        exact fun h => hagent h.1
      rw [bucketLoop]
      simp only [if_neg hagent]
      rw [List.filter_cons_of_neg (p := inAgentBucket U key) (by simp [ha])]
      refine ⟨?_, (ih _ _).2⟩
      rw [(ih _ _).1]
      by_cases hk : bucketPriority U m.Priority = key
      · have hs : inSkillBucket U key m = true := (inSkillBucket_iff U key m).2 ⟨hagent, hk⟩
        rw [List.filter_cons_of_pos (p := inSkillBucket U key) hs]
        subst hk
        rw [Function.update_same]
        simp
      · have hs : inSkillBucket U key m = false := by
          rw [Bool.eq_false_iff, Ne, inSkillBucket_iff]
          exact fun h => hk h.2
        rw [List.filter_cons_of_neg (p := inSkillBucket U key) (by simp [hs]),
          Function.update_noteq (fun e => hk e.symm)]

theorem bucketMatches_eq {F : Type} (U : UnicodeTables) (matched : List (Match F)) (key : Str) :
    (bucketMatches U matched).1 key = (matched.filter (inSkillBucket U key)).map Match.Name ∧
    (bucketMatches U matched).2 key = (matched.filter (inAgentBucket U key)).map Match.Name := by
  have := bucketLoop_eq U matched (fun _ => []) (fun _ => []) key
  simpa [bucketMatches] using this

theorem bucketPriority_mem (U : UnicodeTables) (p : Str) : bucketPriority U p ∈ priorityKeys := by
  unfold bucketPriority priorityKeys
  simp only []
  split
  · simp
  · rename_i h
    simp only [List.mem_cons, List.mem_singleton, List.not_mem_nil, or_false]
    by_contra hc
    exact h ⟨fun e => hc (Or.inl e), fun e => hc (Or.inr (Or.inl e)),
      fun e => hc (Or.inr (Or.inr (Or.inl e))), fun e => hc (Or.inr (Or.inr (Or.inr e)))⟩

theorem bucket_count_one {F : Type} (U : UnicodeTables) (m : Match F) :
    (priorityKeys.map (fun key =>
      (if inSkillBucket U key m = true then 1 else 0) +
      (if inAgentBucket U key m = true then 1 else 0))).sum = 1 := by
  have hmem := bucketPriority_mem U m.Priority
  simp only [priorityKeys, List.mem_cons, List.mem_singleton, List.not_mem_nil, or_false] at hmem
  have d1 : "critical".toList ≠ "high".toList := by decide
  have d2 : "critical".toList ≠ "medium".toList := by decide
  have d3 : "critical".toList ≠ "low".toList := by decide
  have d4 : "high".toList ≠ "medium".toList := by decide
  have d5 : "high".toList ≠ "low".toList := by decide
  have d6 : "medium".toList ≠ "low".toList := by decide
  simp only [priorityKeys, List.map_cons, List.map_nil, List.sum_cons, List.sum_nil,
    inSkillBucket_iff, inAgentBucket_iff]
  generalize "agent".toList = ag at *
  generalize "critical".toList = k1 at *
  generalize "high".toList = k2 at *
  generalize "medium".toList = k3 at *
  generalize "low".toList = k4 at *
  by_cases hagent : m.ItemType = ag <;>
    rcases hmem with h | h | h | h <;>
    simp [hagent, h, d1, d2, d3, d4, d5, d6, d1.symm, d2.symm, d3.symm, d4.symm, d5.symm,
      d6.symm]

theorem bucketMatches_append {F : Type} (U : UnicodeTables) (xs ys : List (Match F))
    (key : Str) :
    (bucketMatches U (xs ++ ys)).1 key =
        (bucketMatches U xs).1 key ++ (bucketMatches U ys).1 key ∧
    (bucketMatches U (xs ++ ys)).2 key =
        (bucketMatches U xs).2 key ++ (bucketMatches U ys).2 key := by
  rw [(bucketMatches_eq U (xs ++ ys) key).1, (bucketMatches_eq U (xs ++ ys) key).2,
    (bucketMatches_eq U xs key).1, (bucketMatches_eq U xs key).2,
    (bucketMatches_eq U ys key).1, (bucketMatches_eq U ys key).2]
  simp

theorem bucketPriority_default (U : UnicodeTables) (p : Str)
    (h : ToLower U p ∉ priorityKeys) : bucketPriority U p = "medium".toList := by
  unfold priorityKeys at h
  simp only [List.mem_cons, List.mem_singleton, List.not_mem_nil, or_false, not_or] at h
  unfold bucketPriority
  simp only []
  rw [if_pos ⟨h.1, h.2.1, h.2.2.1, h.2.2.2⟩]

theorem bucketPriority_of_mem (U : UnicodeTables) (p : Str)
    (h : ToLower U p ∈ priorityKeys) : bucketPriority U p = ToLower U p := by
  unfold priorityKeys at h
  simp only [List.mem_cons, List.mem_singleton, List.not_mem_nil, or_false] at h
  unfold bucketPriority
  simp only []
  rw [if_neg]
  rintro ⟨h1, h2, h3, h4⟩
  rcases h with h | h | h | h
  · exact h1 h
  · exact h2 h
  · exact h3 h
  · exact h4 h

theorem bucketMatches_insert {F : Type} (U : UnicodeTables) (before after : List (Match F))
    (m : Match F) (target : Str) (hm : bucketPriority U m.Priority = target) (key : Str) :
    (bucketMatches U (before ++ m :: after)).1 key =
      (bucketMatches U before).1 key ++
        (if m.ItemType ≠ "agent".toList ∧ key = target then [m.Name] else []) ++
        (bucketMatches U after).1 key ∧
    (bucketMatches U (before ++ m :: after)).2 key =
      (bucketMatches U before).2 key ++
        (if m.ItemType = "agent".toList ∧ key = target then [m.Name] else []) ++
        (bucketMatches U after).2 key := by
  have hsplit : before ++ m :: after = before ++ ([m] ++ after) := rfl
  have h1 := bucketMatches_eq U [m] key
  rw [hsplit, (bucketMatches_append U before ([m] ++ after) key).1,
    (bucketMatches_append U before ([m] ++ after) key).2,
    (bucketMatches_append U [m] after key).1, (bucketMatches_append U [m] after key).2,
    h1.1, h1.2, List.append_assoc, List.append_assoc]
  constructor
  · congr 2
    by_cases hc : m.ItemType ≠ "agent".toList ∧ key = target
    · rw [if_pos hc,
        List.filter_cons_of_pos ((inSkillBucket_iff U key m).2 ⟨hc.1, hm.trans hc.2.symm⟩)]
      rfl
    · rw [if_neg hc, List.filter_cons_of_neg]
      · rfl
      · rw [inSkillBucket_iff]
        exact fun hh => hc ⟨hh.1, hh.2.symm.trans hm⟩
  · congr 2
    by_cases hc : m.ItemType = "agent".toList ∧ key = target
    · rw [if_pos hc,
        List.filter_cons_of_pos ((inAgentBucket_iff U key m).2 ⟨hc.1, hm.trans hc.2.symm⟩)]
      rfl
    · rw [if_neg hc, List.filter_cons_of_neg]
      · rfl
      · rw [inAgentBucket_iff]
        exact fun hh => hc ⟨hh.1, hh.2.symm.trans hm⟩

/-! ## Lemmas on the first line and on the words of a text -/

theorem splitAux_head (sep : Char) (s cur : Str) :
    ∃ rest, splitAux sep cur s = (cur ++ s.takeWhile (fun c => c != sep)) :: rest := by
  induction s generalizing cur with
  | nil => exact ⟨[], by simp [splitAux]⟩
  | cons c cs ih =>
    by_cases hc : c = sep
    · refine ⟨splitAux sep [] cs, ?_⟩
      simp [splitAux, hc, List.takeWhile]
    · obtain ⟨rest, hrest⟩ := ih (cur ++ [c])
      refine ⟨rest, ?_⟩
      have hne : (c != sep) = true := by simpa using hc
      simp only [splitAux, hc, if_false, hrest, List.takeWhile, hne, List.append_assoc,
        List.singleton_append]

theorem isPrefixOf_takeWhile (sep : Char) (p s : Str) (hp : ∀ c ∈ p, c ≠ sep) :
    p.isPrefixOf (s.takeWhile (fun c => c != sep)) = p.isPrefixOf s := by
  induction p generalizing s with
  | nil => simp
  | cons a p ih =>
    have ha : a ≠ sep := hp a (by simp)
    cases s with
    | nil => simp
    | cons c cs =>
      by_cases hc : c = sep
      · subst hc
        have : (a == c) = false := by simpa using ha
        simp [List.takeWhile, List.isPrefixOf, this]
      · have hne : (c != sep) = true := by simpa using hc
        simp only [List.takeWhile, hne, List.isPrefixOf]
        rw [ih cs (fun x hx => hp x (by simp [hx]))]

theorem HasPrefix_first_line (text l0 : Str) (rest : List Str)
    (h : Split text '\n' = l0 :: rest) :
    HasPrefix l0 "---".toList = HasPrefix text "---".toList := by
  obtain ⟨r, hr⟩ := splitAux_head '\n' text []
  unfold Split at h
  rw [hr] at h
  have hl0 : l0 = text.takeWhile (fun c => c != '\n') := by
    have := (List.cons.inj h).1
    simpa using this.symm
  unfold HasPrefix
  rw [hl0]
  exact isPrefixOf_takeWhile '\n' _ text (by decide)

theorem findClosing_none (rest : List Str) (h : ∀ l ∈ rest, TrimSpace l ≠ "---".toList) :
    findClosing rest = none := by
  induction rest with
  | nil => rfl
  | cons l ls ih =>
    rw [findClosing, if_neg (h l (by simp))]
    exact ih (fun x hx => h x (by simp [hx]))

theorem fieldsAux_replaceSpaceRuns (U : UnicodeTables) (s cur : Str) (b : Bool)
    (hb : b = true → cur = []) :
    fieldsAux (isSeparator U) cur (replaceSpaceRuns b s) = fieldsAux (isSeparator U) cur s := by
  induction s generalizing cur b with
  | nil => rfl
  | cons c cs ih =>
    by_cases hc : reSpace c = true
    · have hsep : isSeparator U c = true := isSeparator_of_reSpace U c hc
      have hsp : isSeparator U ' ' = true := isSeparator_of_reSpace U ' ' (by decide)
      cases b with
      | true =>
        have hcur := hb rfl
        subst hcur
        simp only [replaceSpaceRuns, hc, if_true, fieldsAux, hsep, List.isEmpty_nil]
        exact ih [] true (fun _ => rfl)
      | false =>
        simp only [replaceSpaceRuns, hc, if_true, Bool.false_eq_true, if_false, fieldsAux, hsep,
          hsp]
        rw [ih [] true (fun _ => rfl)]
    · simp only [Bool.not_eq_true] at hc
      simp only [replaceSpaceRuns, hc, Bool.false_eq_true, if_false, fieldsAux]
      rw [ih [] false (fun h => by cases h), ih (cur ++ [c]) false (fun h => by cases h)]

theorem length_le_byteLen (s : Str) : s.length ≤ byteLen s := by
  unfold byteLen utf8Encode
  induction s with
  | nil => simp
  | cons c cs ih =>
    have hc : 1 ≤ (utf8EncodeRune c).length := by
      unfold utf8EncodeRune
      simp only []
      split_ifs <;> simp
    simp only [List.map_cons, List.flatten_cons, List.length_append, List.length_cons]
    omega

theorem isSeparator_false_iff (U : UnicodeTables) (c : Char) :
    isSeparator U c = false ↔ (IsLetter U c = true ∨ IsNumber U c = true) := by
  unfold isSeparator
  cases IsLetter U c <;> cases IsNumber U c <;> simp

theorem keepWord_iff (U : UnicodeTables) (w : Str) :
    keepWord U w = true ↔ ToLower U w ∉ stopWords ∧ 1 < byteLen w := by
  unfold keepWord
  rw [Bool.and_eq_true, decide_eq_true_eq, Bool.not_eq_true', ← Bool.not_eq_true]
  have : stopWords.contains (ToLower U w) = true ↔ ToLower U w ∈ stopWords := by simp
  rw [this]

theorem preprocessText_eq (U : UnicodeTables) (hU : U.SpaceFree) (text : Str) :
    preprocessText U text =
      Join ((FieldsFunc (stripFrontmatter text) (isSeparator U)).filter (keepWord U))
        " ".toList := by
  have hw : WordList U ((FieldsFunc (stripFrontmatter text) (isSeparator U)).filter
      (keepWord U)) := fun t ht =>
    fieldsAux_fields (isSeparator U) (stripFrontmatter text) [] (by simp) t
      (List.mem_of_mem_filter ht)
  unfold preprocessText removeStopWords normalizeWhitespace
  simp only []
  unfold FieldsFunc at hw ⊢
  rw [fieldsAux_replaceSpaceRuns U _ [] false (fun h => by cases h)]
  exact TrimSpace_Join U hU _ hw

/-! ## Lemmas on the metadata loop -/

theorem lastValue_cons (key l : Str) (fm : List Str) (current : Str) :
    (lastValue key (l :: fm)).getD current =
      (lastValue key fm).getD (updateField (TrimSpace l) key current) := by
  unfold lastValue updateField
  by_cases h : HasPrefix (TrimSpace l) key = true ∧ fieldValue (TrimSpace l) key ≠ []
  · rw [List.filterMap_cons_some (by rw [if_pos h]), List.getLast?_cons, if_pos h.1, if_pos h.2]
    rfl
  · rw [List.filterMap_cons_none (by rw [if_neg h])]
    by_cases hp : HasPrefix (TrimSpace l) key = true
    · rw [if_pos hp, if_neg (fun hv => h ⟨hp, hv⟩)]
    · rw [if_neg hp]

theorem lastValue_ne_nil (key : Str) (fm : List Str) (v : Str) (h : lastValue key fm = some v) :
    v ≠ [] := by
  unfold lastValue at h
  have hmem := List.mem_of_mem_getLast? (Option.mem_def.2 h)
  obtain ⟨l, _, hl⟩ := List.mem_filterMap.1 hmem
  by_cases hc : HasPrefix (TrimSpace l) key = true ∧ fieldValue (TrimSpace l) key ≠ []
  · rw [if_pos hc] at hl
    exact (Option.some.inj hl) ▸ hc.2
  · rw [if_neg hc] at hl
    cases hl

theorem metadataLoop_eq (fm rest : List Str) (name priority itemType : Str)
    (hfm : ∀ l ∈ fm, TrimSpace l ≠ "---".toList)
    (hrest : ∀ c ∈ rest.head?, TrimSpace c = "---".toList) :
    metadataLoop (name, priority, itemType) (fm ++ rest) =
      ((lastValue "name:".toList fm).getD name, (lastValue "priority:".toList fm).getD priority,
        (lastValue "type:".toList fm).getD itemType) := by
  induction fm generalizing name priority itemType with
  | nil =>
    cases rest with
    | nil => rfl
    | cons c cs =>
      have hc : TrimSpace c = "---".toList := hrest c (by simp)
      show metadataLoop (name, priority, itemType) (c :: cs) = _
      rw [metadataLoop]
      simp only [hc, if_true]
      rfl
  | cons l ls ih =>
    have hl : TrimSpace l ≠ "---".toList := hfm l (by simp)
    show metadataLoop (name, priority, itemType) (l :: (ls ++ rest)) = _
    rw [metadataLoop]
    simp only [hl, if_false]
    rw [ih _ _ _ (fun x hx => hfm x (by simp [hx])), lastValue_cons, lastValue_cons,
      lastValue_cons]

/-! ## Lemmas on the totality and the result of the matching loop -/

theorem loadCachedEmbedding_total {F D : Type} (os : OS) (fl : FloatOps F D) (fs : FS)
    (content : Bytes) : ∃ v b, loadCachedEmbedding os fl fs content = some (v, b) := by
  unfold loadCachedEmbedding
  simp only []
  cases ReadFile fs (getCacheFile os (hashContent os content) "embeddings".toList) with
  | none => exact ⟨[], false, rfl⟩
  | some data =>
    by_cases hlen : data.length % 4 ≠ 0
    · exact ⟨[], false, by simp only [hlen, ne_eq, not_false_eq_true, if_true]⟩
    · obtain ⟨v, hv, _⟩ := decodeLoop_total fl data (data.length / 4) 0 (by omega)
      exact ⟨v, true, by simp only [hlen, if_false, hv]⟩

theorem cosineSimilarity_total {F D : Type} (fl : FloatOps F D) (a b : List F) :
    ∃ s, cosineSimilarity fl a b = some s := by
  unfold cosineSimilarity
  by_cases h : a.length ≠ b.length
  · exact ⟨fl.zero, by rw [if_pos h]⟩
  · rw [if_neg h, dotLoop_eq fl b a 0 fl.zero (by omega)]
    exact ⟨_, rfl⟩

theorem truncateText_total (t : Bytes) (n : Nat) (hn : 10 ≤ n) :
    ∃ t1, truncateText t (((n : Int) - 10) * 3) = some t1 := by
  unfold truncateText
  by_cases h : (t.length : Int) > ((n : Int) - 10) * 3
  · rw [if_pos h, if_neg (by omega)]
    exact ⟨_, rfl⟩
  · rw [if_neg h]
    exact ⟨_, rfl⟩

theorem obtainEmbedding_total {F D : Type} (U : UnicodeTables) (L : Llama F) (os : OS)
    (fl : FloatOps F D) (fs : FS) (item : Item) (hctx : 10 ≤ L.NCtx) :
    ∃ fs1 e, obtainEmbedding U L os fl fs item = some (fs1, e) := by
  obtain ⟨v, b, hload⟩ := loadCachedEmbedding_total os fl fs (itemText U item)
  obtain ⟨t1, ht1⟩ := truncateText_total (itemText U item) L.NCtx hctx
  unfold obtainEmbedding
  simp only [hload]
  cases b with
  | true => exact ⟨_, _, rfl⟩
  | false =>
    simp only [ht1]
    by_cases hinit : L.InitFromModel t1 = false
    · refine ⟨fs, none, ?_⟩
      simp only [hinit, if_true]
    · simp only [hinit, if_false]
      cases getEmbedding L fl t1 with
      | error e => exact ⟨_, _, rfl⟩
      | ok w => exact ⟨_, _, rfl⟩

theorem matchItemsLoop_picked {F D : Type} (U : UnicodeTables) (L : Llama F) (os : OS)
    (fl : FloatOps F D) (promptEmbed : List F) (threshold : F) (hctx : 10 ≤ L.NCtx)
    (items : List Item) (fs : FS) (matched : List (Match F)) :
    ∃ (fs1 : FS) (picked : List (Item × F)),
      matchItemsLoop U L os fl promptEmbed threshold fs matched items =
        some (fs1, matched ++ picked.map (fun p : Item × F => matchOf p.1 p.2)) ∧
      (picked.map Prod.fst).Sublist items := by
  induction items generalizing fs matched with
  | nil => exact ⟨fs, [], by simp [matchItemsLoop], by simp⟩
  | cons item rest ih =>
    obtain ⟨fs1, e, he⟩ := obtainEmbedding_total U L os fl fs item hctx
    rw [matchItemsLoop]
    simp only [he]
    cases e with
    | none =>
      obtain ⟨fs2, picked, h1, h2⟩ := ih fs1 matched
      exact ⟨fs2, picked, h1, h2.cons item⟩
    | some itemEmbed =>
      obtain ⟨s, hs⟩ := cosineSimilarity_total fl promptEmbed itemEmbed
      simp only [hs]
      by_cases hge : fl.ge s threshold = true
      · obtain ⟨fs2, picked, h1, h2⟩ := ih fs1 (matched ++ [matchOf item s])
        refine ⟨fs2, (item, s) :: picked, ?_, ?_⟩
        · simp only [hge, if_true]
          show matchItemsLoop U L os fl promptEmbed threshold fs1
            (matched ++ [matchOf item s]) rest = _
          rw [h1]
          simp
        · simpa using h2.cons₂ item
      · obtain ⟨fs2, picked, h1, h2⟩ := ih fs1 matched
        refine ⟨fs2, picked, ?_, h2.cons item⟩
        simp only [hge, Bool.false_eq_true, if_false]
        exact h1

theorem bucketMatches_sublist {F : Type} (U : UnicodeTables) (matched : List (Match F))
    (key : Str) :
    ((bucketMatches U matched).1 key).Sublist (matched.map Match.Name) ∧
    ((bucketMatches U matched).2 key).Sublist (matched.map Match.Name) := by
  rw [(bucketMatches_eq U matched key).1, (bucketMatches_eq U matched key).2]
  exact ⟨(List.filter_sublist _).map _, (List.filter_sublist _).map _⟩

/-! ## Lemmas on `getEmbedding` -/

theorem getEmbedding_result {F D : Type} (L : Llama F) (fl : FloatOps F D)
    (text : Bytes) :
    ((∃ v, getEmbedding L fl text = Except.ok v) ↔ (0 < L.Tokenize text ∧ L.Encode text = 0)) ∧
    (0 < L.Tokenize text → L.Encode text = 0 →
      getEmbedding L fl text =
        Except.ok ((L.GetEmbeddingsSeq text).map (fun v =>
          fl.mul v (fl.toFloat32 (fl.div64 fl.one64 (rawNorm fl (L.GetEmbeddingsSeq text))))))) := by
  have hok : 0 < L.Tokenize text → L.Encode text = 0 →
      getEmbedding L fl text =
        Except.ok ((L.GetEmbeddingsSeq text).map (fun v =>
          fl.mul v (fl.toFloat32 (fl.div64 fl.one64 (rawNorm fl (L.GetEmbeddingsSeq text)))))) := by
    intro ht he
    unfold getEmbedding rawNorm
    rw [if_neg (by omega), if_neg (by simp [he])]
  refine ⟨⟨?_, fun h => ⟨_, hok h.1 h.2⟩⟩, hok⟩
  rintro ⟨v, hv⟩
  unfold getEmbedding at hv
  by_cases ht : L.Tokenize text ≤ 0
  · rw [if_pos ht] at hv; cases hv
  · rw [if_neg ht] at hv
    by_cases he : L.Encode text ≠ 0
    · rw [if_pos he] at hv; cases hv
    · exact ⟨by omega, not_not.1 he⟩

theorem sumSquares_zero {F D : Type} (fl : FloatOps F D) (n : Nat)
    (hsq : fl.mul fl.zero fl.zero = fl.zero) (hconv : fl.toFloat64 fl.zero = fl.zero64)
    (hadd : fl.add64 fl.zero64 fl.zero64 = fl.zero64) :
    (List.replicate n fl.zero).foldl
      (fun sum v => fl.add64 sum (fl.toFloat64 (fl.mul v v))) fl.zero64 = fl.zero64 := by
  induction n with
  | zero => rfl
  | succ n ih =>
    rw [List.replicate_succ, List.foldl_cons, hsq, hconv, hadd]
    exact ih

/-! ## The normaliser: claims -/

/-- C1: `preprocessText` is idempotent: for every string `x`,
`preprocessText (preprocessText x) = preprocessText x`.  The tables of letters
and numbers are arbitrary tables that list no white-space rune, as the
library's do. -/
theorem preprocessText_idempotent (U : UnicodeTables) (hU : U.SpaceFree) (x : Str) :
    preprocessText U (preprocessText U x) = preprocessText U x := by
  obtain ⟨ts, h1, h2, h3⟩ := preprocessText_shape U hU x
  rw [h3]
  unfold preprocessText normalizeWhitespace
  rw [stripFrontmatter_Join U ts h1, replaceSpaceRuns_Join U ts h1,
    removeStopWords_Join U ts h1 h2, TrimSpace_Join U hU ts h1]

/-- Witness of C1 at the text of the test `full preprocessing`. -/
theorem preprocessText_idempotent_witness :
    latin1Tables.SpaceFree ∧
    preprocessText latin1Tables (preprocessText latin1Tables
        "---\nname: test\n---\nThis is a Python expert skill for Django and Flask".toList) =
      preprocessText latin1Tables
        "---\nname: test\n---\nThis is a Python expert skill for Django and Flask".toList :=
  ⟨latin1Tables_spaceFree, preprocessText_idempotent latin1Tables latin1Tables_spaceFree _⟩

/-- C2: when the first line of the text begins with `---` (in particular when
it is the delimiter `---`) and a later line is `---` after trimming,
`stripFrontmatter` returns the lines after the first such line, joined by
newlines: `pre` are the lines between the opening line and the first closing
line `c`, `post` the lines after it. -/
theorem stripFrontmatter_closed (text l0 : Str) (pre : List Str) (c : Str) (post : List Str)
    (hlines : Split text '\n' = l0 :: (pre ++ c :: post))
    (hopen : HasPrefix l0 "---".toList = true)
    (hpre : ∀ l ∈ pre, TrimSpace l ≠ "---".toList)
    (hclose : TrimSpace c = "---".toList) :
    stripFrontmatter text = Join post "\n".toList := by
  unfold stripFrontmatter
  rw [hlines]
  simp only [hopen, if_true]
  rw [findClosing_append pre c post hpre hclose]

/-- Witness of C2 at the text of the test `with frontmatter`. -/
theorem stripFrontmatter_closed_witness :
    stripFrontmatter "---\nname: test\npriority: high\n---\nContent here".toList =
      "Content here".toList :=
  stripFrontmatter_closed "---\nname: test\npriority: high\n---\nContent here".toList
    "---".toList ["name: test".toList, "priority: high".toList] "---".toList
    ["Content here".toList] (by decide) (by decide) (by decide) (by decide)

/-- C3, at the input `é`: the word is one character long and is not a stop
word, and `removeStopWords` keeps it, because the length compared with 1 is the
number of bytes of the word (2). -/
theorem removeStopWords_one_rune_kept :
    removeStopWords latin1Tables "é".toList = "é".toList ∧ "é".toList.length = 1 ∧
      byteLen "é".toList = 2 := by
  decide

/-- C4: `normalizeWhitespace` replaces each maximal run of white space (the
class `\s`) by exactly one space, returns a text without white space as it is,
keeps the other characters unchanged and in order, and its output has no white
space character other than the space and no two adjacent spaces. -/
theorem normalizeWhitespace_collapses (text : Str) :
    (∀ a run b : Str, text = a ++ run ++ b → run ≠ [] → (∀ c ∈ run, reSpace c = true) →
        (∀ x ∈ a.getLast?, reSpace x = false) → (∀ x ∈ b.head?, reSpace x = false) →
        normalizeWhitespace text = normalizeWhitespace a ++ ' ' :: normalizeWhitespace b) ∧
    ((∀ c ∈ text, reSpace c = false) → normalizeWhitespace text = text) ∧
    (normalizeWhitespace text).filter (fun c => !reSpace c) =
      text.filter (fun c => !reSpace c) ∧
    (∀ c ∈ normalizeWhitespace text, reSpace c = true → c = ' ') ∧
    List.Chain' (fun x y => ¬ (x = ' ' ∧ y = ' ')) (normalizeWhitespace text) := by
  refine ⟨?_, replaceSpaceRuns_word false text, replaceSpaceRuns_filter false text,
    replaceSpaceRuns_mem false text, (replaceSpaceRuns_chain false text).1⟩
  intro a run b htext hne hrun ha hb
  unfold normalizeWhitespace
  rw [htext, List.append_assoc, replaceSpaceRuns_append, endsInRun_of_getLast a ha]
  congr 1
  cases run with
  | nil => exact absurd rfl hne
  | cons c cs =>
    have hc : reSpace c = true := hrun c (by simp)
    show replaceSpaceRuns false (c :: (cs ++ b)) = _
    rw [replaceSpaceRuns]
    simp only [hc, if_true, Bool.false_eq_true, if_false]
    rw [replaceSpaceRuns_append, replaceSpaceRuns_run cs (fun x hx => hrun x (by simp [hx])),
      List.nil_append, replaceSpaceRuns_flag _ b hb]

/-- Witness of C4 at the text of the test `mixed whitespace`. -/
theorem normalizeWhitespace_collapses_witness :
    normalizeWhitespace "foo   \n\n  bar\t\tbaz".toList =
      normalizeWhitespace "foo".toList ++ ' ' :: normalizeWhitespace "bar\t\tbaz".toList ∧
    normalizeWhitespace "foo   \n\n  bar\t\tbaz".toList = "foo bar baz".toList :=
  ⟨(normalizeWhitespace_collapses "foo   \n\n  bar\t\tbaz".toList).1
      "foo".toList "   \n\n  ".toList "bar\t\tbaz".toList
      (by decide) (by decide) (by decide) (by decide) (by decide), by decide⟩

/-! ## The cache and the similarity: claims -/

/-- C5: cache round trip.  When `saveCachedEmbedding(t, v)` succeeds, a
following `loadCachedEmbedding(t)` finds the record and returns a vector of
the same length whose components are rebuilt from exactly the bit patterns of
the components of `v`, hence `v` itself; the bit patterns are 32-bit words and
`math.Float32frombits` undoes `math.Float32bits`. -/
theorem cache_round_trip {F D : Type} (os : OS) (fl : FloatOps F D) (fs : FS) (t : Bytes)
    (v : List F) (hbits : ∀ x ∈ v, fl.Float32bits x < 2 ^ 32)
    (hcast : ∀ x ∈ v, fl.Float32frombits (fl.Float32bits x) = x)
    (hsave : (saveCachedEmbedding os fl fs t v).2 = true) :
    loadCachedEmbedding os fl (saveCachedEmbedding os fl fs t v).1 t = some (v, true) := by
  unfold saveCachedEmbedding at hsave ⊢
  unfold loadCachedEmbedding
  simp only []
  rw [ReadFile_WriteFile os fs _ _ hsave]
  have hlen := length_encoded (v.map fl.Float32bits)
  rw [List.map_map] at hlen
  have hcomp : (fun v => encodeWord (fl.Float32bits v)) = encodeWord ∘ fl.Float32bits := rfl
  simp only [hcomp, hlen, Nat.mul_mod_left, ne_eq, not_true_eq_false, if_false,
    Nat.mul_div_cancel _ (show 0 < 4 by decide)]
  have hdec := decodeLoop_encode fl (v.map fl.Float32bits)
    (fun w hw => by
      obtain ⟨x, hx, rfl⟩ := List.mem_map.1 hw
      exact hbits x hx) [] 0 rfl
  simp only [List.nil_append, List.map_map, List.length_map] at hdec
  rw [List.length_map, hdec]
  have : List.map (fl.Float32frombits ∘ fl.Float32bits) v = v := by
    conv_rhs => rw [← List.map_id v]
    exact List.map_congr_left (fun x hx => hcast x hx)
  rw [this]

/-- Witness of C5 at the vector `(1, 2, 3, 70000)` in exact arithmetic. -/
theorem cache_round_trip_witness :
    (∀ x ∈ [1, 2, 3, (70000 : Int)], intOps.Float32bits x < 2 ^ 32) ∧
    (saveCachedEmbedding plainOS intOps [] [116] [1, 2, 3, 70000]).2 = true ∧
    loadCachedEmbedding plainOS intOps
      (saveCachedEmbedding plainOS intOps [] [116] [1, 2, 3, 70000]).1 [116] =
        some ([1, 2, 3, 70000], true) :=
  ⟨by decide, by decide,
    cache_round_trip plainOS intOps [] [116] [1, 2, 3, 70000] (by decide) (by decide) (by decide)⟩

/-- C7: for vectors of different lengths `cosineSimilarity` returns exactly 0,
without a panic. -/
theorem cosineSimilarity_length_mismatch {F D : Type} (fl : FloatOps F D) (a b : List F)
    (h : a.length ≠ b.length) : cosineSimilarity fl a b = some fl.zero := by
  unfold cosineSimilarity
  rw [if_pos h]

/-- Witness of C7 at the vectors of the test `different length`. -/
theorem cosineSimilarity_length_mismatch_witness :
    cosineSimilarity intOps [1, 0] [1, 0, 0] = some 0 :=
  cosineSimilarity_length_mismatch intOps [1, 0] [1, 0, 0] (by decide)

/-- C8: for vectors of the same length `cosineSimilarity` returns, without a
panic, the dot product accumulated from index 0 upward.  Consequently a vector
whose dot product with itself is 1 (a unit vector) gives 1 with itself, and two
vectors whose dot product is 0 (orthogonal vectors) give 0; in every arithmetic
in which `1 * 1 = 1`, `1 * 0 = 0 * 1 = 0 * 0 = 0`, `0 + 1 = 1 + 0 = 1` and
`0 + 0 = 0`, as in `float32`, the vector `(1, 0, 0)` with itself gives 1 and
with `(0, 1, 0)` gives 0. -/
theorem cosineSimilarity_dot {F D : Type} (fl : FloatOps F D) (a b : List F)
    (h : a.length = b.length) :
    cosineSimilarity fl a b = some (dotProduct fl a b) ∧
    (∀ one : F, dotProduct fl a a = one → cosineSimilarity fl a a = some one) ∧
    (dotProduct fl a b = fl.zero → cosineSimilarity fl a b = some fl.zero) ∧
    (∀ one : F, fl.mul one one = one → fl.mul one fl.zero = fl.zero →
      fl.mul fl.zero one = fl.zero → fl.mul fl.zero fl.zero = fl.zero →
      fl.add fl.zero one = one → fl.add one fl.zero = one → fl.add fl.zero fl.zero = fl.zero →
      cosineSimilarity fl [one, fl.zero, fl.zero] [one, fl.zero, fl.zero] = some one ∧
      cosineSimilarity fl [one, fl.zero, fl.zero] [fl.zero, one, fl.zero] = some fl.zero) := by
  have main : ∀ x y : List F, x.length = y.length →
      cosineSimilarity fl x y = some (dotProduct fl x y) := by
    intro x y hxy
    unfold cosineSimilarity dotProduct
    rw [if_neg (by simpa using hxy), dotLoop_eq fl y x 0 fl.zero (by omega)]
    rfl
  refine ⟨main a b h, ?_, ?_, ?_⟩
  · intro one hone
    rw [main a a rfl, hone]
  · intro hzero
    rw [main a b h, hzero]
  · intro one h11 h10 h01 h00 a01 a10 a00
    constructor
    · simp [cosineSimilarity, dotLoop, h11, h00, a01, a10]
    · simp [cosineSimilarity, dotLoop, h10, h01, h00, a00]

/-- Witness of C8 at the vectors of the tests `identical vectors` and
`orthogonal vectors`, in exact arithmetic. -/
theorem cosineSimilarity_dot_witness :
    cosineSimilarity intOps [1, 0, 0] [1, 0, 0] = some 1 ∧
    cosineSimilarity intOps [1, 0, 0] [0, 1, 0] = some 0 :=
  ⟨(cosineSimilarity_dot intOps [1, 0, 0] [1, 0, 0] (by decide)).1,
   (cosineSimilarity_dot intOps [1, 0, 0] [0, 1, 0] (by decide)).1⟩

/-! ## The matching loop: claims -/

/-- C6: the threshold is inclusive.  When the items `before` have been
processed (leaving the file system `fs1` and the matches `ms1`), the
embedding of `item` is obtained, from the cache or from the provider, and has
the similarity `similarity` with the prompt, the result of `matchItems` is
`ms1`, then the match of `item` exactly when `similarity >= threshold`, then
the matches of the items `after`; in particular the match is in the result
when the similarity is the threshold and the threshold is comparable with
itself (it is not a NaN). -/
theorem matchItems_threshold_inclusive {F D : Type} (U : UnicodeTables) (L : Llama F) (os : OS)
    (fl : FloatOps F D) (promptEmbed : List F) (threshold : F)
    (before : List Item) (item : Item) (after : List Item) (fs fs1 fs2 fs3 : FS)
    (ms1 ms3 : List (Match F)) (itemEmbed : List F) (similarity : F)
    (hbefore : matchItems U L os fl promptEmbed before threshold fs = some (fs1, ms1))
    (hitem : obtainEmbedding U L os fl fs1 item = some (fs2, some itemEmbed))
    (hsim : cosineSimilarity fl promptEmbed itemEmbed = some similarity)
    (hafter : matchItems U L os fl promptEmbed after threshold fs2 = some (fs3, ms3)) :
    matchItems U L os fl promptEmbed (before ++ item :: after) threshold fs =
      some (fs3, ms1 ++
        (if fl.ge similarity threshold = true
          then [⟨item.Name, item.Path, similarity, item.Priority, item.ItemType⟩] else []) ++
        ms3) ∧
    (similarity = threshold → fl.ge threshold threshold = true →
      matchItems U L os fl promptEmbed (before ++ item :: after) threshold fs =
        some (fs3, ms1 ++ [⟨item.Name, item.Path, similarity, item.Priority, item.ItemType⟩] ++
          ms3)) := by
  have main : matchItems U L os fl promptEmbed (before ++ item :: after) threshold fs =
      some (fs3, ms1 ++
        (if fl.ge similarity threshold = true
          then [⟨item.Name, item.Path, similarity, item.Priority, item.ItemType⟩] else []) ++
        ms3) := by
    unfold matchItems at hbefore hafter ⊢
    rw [matchItemsLoop_append, hbefore]
    simp only [Option.some_bind, matchItemsLoop, hitem, hsim]
    by_cases hge : fl.ge similarity threshold = true
    · simp only [hge, if_true]
      rw [matchItemsLoop_acc, hafter]
      simp
    · simp only [hge, Bool.false_eq_true, if_false]
      rw [matchItemsLoop_acc, hafter]
      simp
  refine ⟨main, ?_⟩
  intro heq hrefl
  rw [main, heq, hrefl]
  simp

/-- C10, amended: `loadCachedEmbedding` returns no vector and `found = false`
when the record is absent and when its length is not a multiple of 4; a record
whose length is a multiple of 4 is returned as found, with a quarter as many
components as it has bytes.  It never panics. -/
theorem loadCachedEmbedding_found_iff {F D : Type} (os : OS) (fl : FloatOps F D) (fs : FS)
    (content : Bytes) :
    (ReadFile fs (getCacheFile os (hashContent os content) "embeddings".toList) = none →
      loadCachedEmbedding os fl fs content = some ([], false)) ∧
    (∀ data, ReadFile fs (getCacheFile os (hashContent os content) "embeddings".toList) =
        some data → data.length % 4 ≠ 0 →
      loadCachedEmbedding os fl fs content = some ([], false)) ∧
    (∀ data, ReadFile fs (getCacheFile os (hashContent os content) "embeddings".toList) =
        some data → data.length % 4 = 0 →
      ∃ v, loadCachedEmbedding os fl fs content = some (v, true) ∧
        v.length = data.length / 4) := by
  refine ⟨?_, ?_, ?_⟩
  · intro h
    simp only [loadCachedEmbedding, h]
  · intro data h hlen
    simp only [loadCachedEmbedding, h, hlen, ne_eq, not_false_eq_true, if_true]
  · intro data h hlen
    obtain ⟨v, hv, hvlen⟩ := decodeLoop_total fl data (data.length / 4) 0 (by omega)
    refine ⟨v, ?_, hvlen⟩
    simp only [loadCachedEmbedding, h, hlen, ne_eq, not_true_eq_false, if_false, hv]

/-- Witness of C10 (amended): an absent record, a record of 5 bytes and a
record of 4 bytes. -/
theorem loadCachedEmbedding_found_iff_witness :
    loadCachedEmbedding plainOS intOps [] [116] = some ([], false) ∧
    loadCachedEmbedding plainOS intOps
      [(getCacheFile plainOS (hashContent plainOS [116]) "embeddings".toList, [1, 0, 0, 0, 2])]
      [116] = some ([], false) ∧
    (∃ v, loadCachedEmbedding plainOS intOps
      [(getCacheFile plainOS (hashContent plainOS [116]) "embeddings".toList, [1, 0, 0, 0])]
      [116] = some (v, true) ∧ v.length = [1, 0, 0, 0].length / 4) :=
  ⟨(loadCachedEmbedding_found_iff plainOS intOps [] [116]).1 (by decide),
   (loadCachedEmbedding_found_iff plainOS intOps _ [116]).2.1 [1, 0, 0, 0, 2] (by decide)
     (by decide),
   (loadCachedEmbedding_found_iff plainOS intOps _ [116]).2.2 [1, 0, 0, 0] (by decide)
     (by decide)⟩

/-- C10 as stated fails: the first 4 bytes of the 8-byte record that
`saveCachedEmbedding` writes for the vector `(1, 2)` are a partially written
record, and `loadCachedEmbedding` returns the vector `(1)` with `found = true`. -/
theorem loadCachedEmbedding_partial_record_found :
    ReadFile (saveCachedEmbedding plainOS intOps [] [116] [1, 2]).1
      (getCacheFile plainOS (hashContent plainOS [116]) "embeddings".toList) =
        some [1, 0, 0, 0, 2, 0, 0, 0] ∧
    [1, 0, 0, 0] <+: [1, 0, 0, 0, 2, 0, 0, 0] ∧
    [1, 0, 0, 0] ≠ [1, 0, 0, 0, 2, 0, 0, 0] ∧
    loadCachedEmbedding plainOS intOps
      [(getCacheFile plainOS (hashContent plainOS [116]) "embeddings".toList, [1, 0, 0, 0])]
      [116] = some ([1], true) := by
  decide

/-- Witness of C6: one item with the similarity 1 and the threshold 1. -/
theorem matchItems_threshold_inclusive_witness :
    matchItems latin1Tables (constLlama 512) plainOS intOps [1, 0, 0] ([] ++ helloItem :: [])
      1 [] =
    some ((saveCachedEmbedding plainOS intOps [] (itemText latin1Tables helloItem) [1, 0, 0]).1,
      [] ++ [⟨"a".toList, "/p".toList, 1, "high".toList, "skill".toList⟩] ++ []) :=
  (matchItems_threshold_inclusive latin1Tables (constLlama 512) plainOS intOps [1, 0, 0] 1
    [] helloItem [] [] []
    (saveCachedEmbedding plainOS intOps [] (itemText latin1Tables helloItem) [1, 0, 0]).1
    (saveCachedEmbedding plainOS intOps [] (itemText latin1Tables helloItem) [1, 0, 0]).1
    [] [] [1, 0, 0] 1 (by decide) (by decide) (by decide) (by decide)).2 rfl (by decide)

/-- C9, for an item whose text is longer than `maxChars`: after a cache miss
the embedding is computed from the truncated text and is stored under the
digest of the truncated text, while the lookup used the digest of the whole
text; when the two digests differ, the record of the whole text is still
absent afterwards and looking the same item up again is a miss. -/
theorem obtainEmbedding_truncated_key {F D : Type} (U : UnicodeTables) (L : Llama F) (os : OS)
    (fl : FloatOps F D) (fs : FS) (item : Item) (v : List F)
    (hctx : 10 ≤ L.NCtx)
    (hlong : (L.NCtx - 10) * 3 < (itemText U item).length)
    (habsent : ReadFile fs
      (getCacheFile os (hashContent os (itemText U item)) "embeddings".toList) = none)
    (hinit : L.InitFromModel ((itemText U item).take ((L.NCtx - 10) * 3)) = true)
    (hembed : getEmbedding L fl ((itemText U item).take ((L.NCtx - 10) * 3)) = .ok v)
    (hwrite : os.writeFails (getCacheFile os
      (hashContent os ((itemText U item).take ((L.NCtx - 10) * 3))) "embeddings".toList) = false)
    (hhash : hashContent os (itemText U item) ≠
      hashContent os ((itemText U item).take ((L.NCtx - 10) * 3))) :
    ∃ fs1, obtainEmbedding U L os fl fs item = some (fs1, some v) ∧
      ReadFile fs1 (getCacheFile os
        (hashContent os ((itemText U item).take ((L.NCtx - 10) * 3))) "embeddings".toList) =
        some ((v.map (fun x => encodeWord (fl.Float32bits x))).flatten) ∧
      ReadFile fs1
        (getCacheFile os (hashContent os (itemText U item)) "embeddings".toList) = none ∧
      loadCachedEmbedding os fl fs1 (itemText U item) = some ([], false) := by
  have hload : loadCachedEmbedding os fl fs (itemText U item) = some ([], false) := by
    simp only [loadCachedEmbedding, habsent]
  have hwok : ∀ data, (WriteFile os fs (getCacheFile os
      (hashContent os ((itemText U item).take ((L.NCtx - 10) * 3))) "embeddings".toList)
      data).2 = true := by
    intro data
    unfold WriteFile
    rw [hwrite]
    rfl
  have hne : getCacheFile os (hashContent os (itemText U item)) "embeddings".toList ≠
      getCacheFile os (hashContent os ((itemText U item).take ((L.NCtx - 10) * 3)))
        "embeddings".toList :=
    fun e => hhash (getCacheFile_inj os _ _ _ e)
  refine ⟨(saveCachedEmbedding os fl fs ((itemText U item).take ((L.NCtx - 10) * 3)) v).1,
    ?_, ?_, ?_, ?_⟩
  · unfold obtainEmbedding
    simp only [hload, truncateText_long _ _ hctx hlong, hinit, Bool.true_eq_false, if_false,
      hembed]
  · exact ReadFile_WriteFile os fs _ _ (hwok _)
  · exact ReadFile_WriteFile_other os fs _ _ _ hne habsent
  · have := ReadFile_WriteFile_other os fs _ _
      ((v.map (fun x => encodeWord (fl.Float32bits x))).flatten) hne habsent
    unfold saveCachedEmbedding
    simp only [loadCachedEmbedding, this]

theorem hashContent_longItem :
    hashContent plainOS (itemText latin1Tables longItem) ≠
      hashContent plainOS ((itemText latin1Tables longItem).take ((512 - 10) * 3)) := by
  rw [itemText_longItem, List.take_replicate]
  intro h
  unfold hashContent hexEncodeToString plainOS at h
  simp only [List.length_replicate, List.map_cons, List.flatten_cons, List.cons_append,
    List.cons.injEq] at h
  exact absurd h.2.1 (by decide)

/-- Witness of C9: the item `longItem`, whose text has 1507 bytes, with a
context of 512 tokens (`maxChars` is 1506) and an empty cache. -/
theorem obtainEmbedding_truncated_key_witness :
    (512 - 10) * 3 < (itemText latin1Tables longItem).length ∧
    ∃ fs1, obtainEmbedding latin1Tables (constLlama 512) plainOS intOps [] longItem =
        some (fs1, some [1, 0, 0]) ∧
      ReadFile fs1 (getCacheFile plainOS
        (hashContent plainOS ((itemText latin1Tables longItem).take ((512 - 10) * 3)))
        "embeddings".toList) =
        some (([1, 0, 0].map (fun x => encodeWord (intOps.Float32bits x))).flatten) ∧
      ReadFile fs1 (getCacheFile plainOS (hashContent plainOS (itemText latin1Tables longItem))
        "embeddings".toList) = none ∧
      loadCachedEmbedding plainOS intOps fs1 (itemText latin1Tables longItem) =
        some ([], false) :=
  have hlong : (512 - 10) * 3 < (itemText latin1Tables longItem).length := by
    rw [itemText_longItem, List.length_replicate]; decide
  ⟨hlong, obtainEmbedding_truncated_key latin1Tables (constLlama 512) plainOS intOps []
    longItem [1, 0, 0] (by decide) hlong rfl rfl rfl rfl hashContent_longItem⟩

/-! ## The report buckets: claims -/

/-- C11: stable partition in `outputWithTemplate`.  For every list of matches
and every key, the bucket of the skills and the bucket of the agents under
that key hold exactly the names of the matches assigned to them, in the order
of the list; every match is filed under one of the four keys, and the eight
buckets of the four keys together hold as many names as there are matches, so
every match lands in exactly one bucket. -/
theorem outputWithTemplate_stable_partition {F : Type} (U : UnicodeTables)
    (matched : List (Match F)) :
    (∀ key, (bucketMatches U matched).1 key =
        (matched.filter (inSkillBucket U key)).map Match.Name ∧
      (bucketMatches U matched).2 key =
        (matched.filter (inAgentBucket U key)).map Match.Name) ∧
    (∀ m ∈ matched, bucketPriority U m.Priority ∈ priorityKeys) ∧
    (priorityKeys.map (fun key => ((bucketMatches U matched).1 key).length +
      ((bucketMatches U matched).2 key).length)).sum = matched.length := by
  refine ⟨bucketMatches_eq U matched, fun m _ => bucketPriority_mem U m.Priority, ?_⟩
  have hfun : (fun key => ((bucketMatches U matched).1 key).length +
      ((bucketMatches U matched).2 key).length) =
      (fun key => ((matched.filter (inSkillBucket U key)).length +
        (matched.filter (inAgentBucket U key)).length)) := by
    funext key
    rw [(bucketMatches_eq U matched key).1, (bucketMatches_eq U matched key).2]
    simp
  rw [hfun]
  clear hfun
  induction matched with
  | nil => simp [priorityKeys]
  | cons m rest ih =>
    have h1 := bucket_count_one U m
    simp only [priorityKeys, List.map_cons, List.map_nil, List.sum_cons, List.sum_nil,
      List.filter_cons, List.length_cons] at h1 ih ⊢
    have e : ∀ (c : Bool) (l : List (Match F)),
        (if c = true then m :: l else l).length = (if c = true then 1 else 0) + l.length := by
      intro c l
      cases c
      · simp
      · simp; omega
    simp only [e]
    omega

/-- C12, amended: a match whose priority in lower case is none of `critical`,
`high`, `medium`, `low` (an empty priority included) is filed under `medium`:
its name is put in the `medium` bucket of its category, after the names of the
matches before it and before the names of the matches after it, and in no
other bucket.  A match whose priority in lower case is one of the four, so
also one that differs from it only in letter case, is filed in the same way
under that priority. -/
theorem outputWithTemplate_default_medium {F : Type} (U : UnicodeTables)
    (before after : List (Match F)) (m : Match F) (key : Str) :
    (ToLower U m.Priority ∉ priorityKeys →
      (bucketMatches U (before ++ m :: after)).1 key =
        (bucketMatches U before).1 key ++
          (if m.ItemType ≠ "agent".toList ∧ key = "medium".toList then [m.Name] else []) ++
          (bucketMatches U after).1 key ∧
      (bucketMatches U (before ++ m :: after)).2 key =
        (bucketMatches U before).2 key ++
          (if m.ItemType = "agent".toList ∧ key = "medium".toList then [m.Name] else []) ++
          (bucketMatches U after).2 key) ∧
    (ToLower U m.Priority ∈ priorityKeys →
      (bucketMatches U (before ++ m :: after)).1 key =
        (bucketMatches U before).1 key ++
          (if m.ItemType ≠ "agent".toList ∧ key = ToLower U m.Priority then [m.Name] else []) ++
          (bucketMatches U after).1 key ∧
      (bucketMatches U (before ++ m :: after)).2 key =
        (bucketMatches U before).2 key ++
          (if m.ItemType = "agent".toList ∧ key = ToLower U m.Priority then [m.Name] else []) ++
          (bucketMatches U after).2 key) :=
  ⟨fun h => bucketMatches_insert U before after m _ (bucketPriority_default U m.Priority h) key,
   fun h => bucketMatches_insert U before after m _ (bucketPriority_of_mem U m.Priority h) key⟩

/-- Witness of C12 (amended): a skill with the priority `urgent` between two
skills of medium priority is put in the bucket `medium`, and an agent with the
priority `High` after a skill is put in the bucket `high` of the agents and
not in their bucket `medium`. -/
theorem outputWithTemplate_default_medium_witness :
    (bucketMatches latin1Tables
      ([(⟨"a".toList, [], 0, "medium".toList, "skill".toList⟩ : Match Int)] ++
        ⟨"b".toList, [], 0, "urgent".toList, "skill".toList⟩ ::
        [⟨"c".toList, [], 0, "Medium".toList, "skill".toList⟩])).1 "medium".toList =
      ["a".toList] ++ ["b".toList] ++ ["c".toList] ∧
    (bucketMatches latin1Tables
      ([(⟨"a".toList, [], 0, "medium".toList, "skill".toList⟩ : Match Int)] ++
        ⟨"d".toList, [], 0, "High".toList, "agent".toList⟩ :: [])).2 "high".toList =
      [] ++ ["d".toList] ++ [] ∧
    (bucketMatches latin1Tables
      ([(⟨"a".toList, [], 0, "medium".toList, "skill".toList⟩ : Match Int)] ++
        ⟨"d".toList, [], 0, "High".toList, "agent".toList⟩ :: [])).2 "medium".toList =
      [] ++ [] ++ [] :=
  ⟨((outputWithTemplate_default_medium latin1Tables
      [(⟨"a".toList, [], 0, "medium".toList, "skill".toList⟩ : Match Int)]
      [⟨"c".toList, [], 0, "Medium".toList, "skill".toList⟩]
      ⟨"b".toList, [], 0, "urgent".toList, "skill".toList⟩ "medium".toList).1 (by decide)).1,
   ((outputWithTemplate_default_medium latin1Tables
      [(⟨"a".toList, [], 0, "medium".toList, "skill".toList⟩ : Match Int)] []
      ⟨"d".toList, [], 0, "High".toList, "agent".toList⟩ "high".toList).2 (by decide)).2,
   ((outputWithTemplate_default_medium latin1Tables
      [(⟨"a".toList, [], 0, "medium".toList, "skill".toList⟩ : Match Int)] []
      ⟨"d".toList, [], 0, "High".toList, "agent".toList⟩ "medium".toList).2 (by decide)).2⟩

/-- C12 as stated fails: the priority `High` is none of the four values
`critical`, `high`, `medium`, `low`, and the match is put in the bucket `high`
of the skills, not in the bucket `medium`. -/
theorem outputWithTemplate_High_not_medium :
    "High".toList ∉ priorityKeys ∧
    (bucketMatches latin1Tables
      [(⟨"a".toList, [], 0, "High".toList, "skill".toList⟩ : Match Int)]).1 "medium".toList =
        [] ∧
    (bucketMatches latin1Tables
      [(⟨"a".toList, [], 0, "High".toList, "skill".toList⟩ : Match Int)]).1 "high".toList =
        ["a".toList] := by
  decide

/-! ## Provider failures and the result of matching: claims -/

/-- C13: a provider failure for one item skips only that item.  When `item` is
reached with the file system `fs1`, misses the cache, and the creation of its
context or its embedding fails, the loop records no match for it and leaves
the file system as it is, and `matchItems` returns what it returns for the
list without that item. -/
theorem matchItems_skips_failed_item {F D : Type} (U : UnicodeTables) (L : Llama F) (os : OS)
    (fl : FloatOps F D) (promptEmbed : List F) (threshold : F)
    (before : List Item) (item : Item) (after : List Item) (fs fs1 : FS)
    (ms1 : List (Match F)) (text : Bytes)
    (hbefore : matchItems U L os fl promptEmbed before threshold fs = some (fs1, ms1))
    (hmiss : loadCachedEmbedding os fl fs1 (itemText U item) = some ([], false))
    (htrunc : truncateText (itemText U item) (((L.NCtx : Int) - 10) * 3) = some text)
    (hfail : L.InitFromModel text = false ∨ ∃ e, getEmbedding L fl text = Except.error e) :
    obtainEmbedding U L os fl fs1 item = some (fs1, none) ∧
    matchItems U L os fl promptEmbed (before ++ item :: after) threshold fs =
      matchItems U L os fl promptEmbed (before ++ after) threshold fs := by
  have hskip : obtainEmbedding U L os fl fs1 item = some (fs1, none) := by
    unfold obtainEmbedding
    simp only [hmiss, htrunc]
    rcases hfail with hinit | ⟨e, he⟩
    · simp only [hinit, if_true]
    · simp only [he]
      split <;> rfl
  refine ⟨hskip, ?_⟩
  unfold matchItems at hbefore ⊢
  rw [matchItemsLoop_append, matchItemsLoop_append, hbefore]
  simp only [Option.some_bind, matchItemsLoop, hskip]

/-- Witness of C13: the item `helloItem`, whose context cannot be created,
before the item `longItem`. -/
theorem matchItems_skips_failed_item_witness :
    obtainEmbedding latin1Tables failingLlama plainOS intOps [] helloItem = some ([], none) ∧
    matchItems latin1Tables failingLlama plainOS intOps [1, 0, 0]
        ([] ++ helloItem :: [longItem]) 1 [] =
      matchItems latin1Tables failingLlama plainOS intOps [1, 0, 0] ([] ++ [longItem]) 1 [] :=
  matchItems_skips_failed_item latin1Tables failingLlama plainOS intOps [1, 0, 0] 1
    [] helloItem [longItem] [] [] [] (itemText latin1Tables helloItem)
    (by decide) (by decide) (by decide) (Or.inl rfl)

/-- C14, at a raw vector of zeros: in every arithmetic with the `float32` and
`float64` facts `0 * 0 = 0`, `float64(0) = 0`, `0 + 0 = 0`, `sqrt 0 = 0`,
`1.0 / 0 = +Inf`, `float32(+Inf) = +Inf` and `0 * +Inf = NaN`, the norm that
`getEmbedding` computes for the zero vector is zero, and `getEmbedding` returns
no error but a vector whose components are all `NaN`. -/
theorem getEmbedding_zero_vector_nan {F D : Type} (L : Llama F) (fl : FloatOps F D)
    (text : Bytes) (n : Nat) (inf64 : D) (inf32 nan32 : F)
    (htok : 0 < L.Tokenize text) (henc : L.Encode text = 0)
    (hvec : L.GetEmbeddingsSeq text = List.replicate n fl.zero)
    (hsq : fl.mul fl.zero fl.zero = fl.zero)
    (hconv : fl.toFloat64 fl.zero = fl.zero64)
    (hadd : fl.add64 fl.zero64 fl.zero64 = fl.zero64)
    (hsqrt : fl.Sqrt fl.zero64 = fl.zero64)
    (hdiv : fl.div64 fl.one64 fl.zero64 = inf64)
    (hto32 : fl.toFloat32 inf64 = inf32)
    (hnan : fl.mul fl.zero inf32 = nan32) :
    rawNorm fl (L.GetEmbeddingsSeq text) = fl.zero64 ∧
    getEmbedding L fl text = Except.ok (List.replicate n nan32) := by
  have hnorm : rawNorm fl (List.replicate n fl.zero) = fl.zero64 := by
    unfold rawNorm
    rw [sumSquares_zero fl n hsq hconv hadd, hsqrt]
  refine ⟨by rw [hvec, hnorm], ?_⟩
  rw [(getEmbedding_result L fl text).2 htok henc, hvec, hnorm, hdiv, hto32,
    List.map_replicate, hnan]

/-- Witness of C14: the model that delivers `(0, 0, 0)`, in the arithmetic
with infinities and not-a-number. -/
theorem getEmbedding_zero_vector_nan_witness :
    rawNorm xOps (zeroLlama.GetEmbeddingsSeq [116]) = xOps.zero64 ∧
    getEmbedding zeroLlama xOps [116] = Except.ok [XNum.nan, XNum.nan, XNum.nan] :=
  getEmbedding_zero_vector_nan zeroLlama xOps [116] 3 XNum.inf XNum.inf XNum.nan
    (by decide) (by decide) rfl (by decide) rfl (by decide) (by decide) (by decide) rfl
    (by decide)

/-- What follows for `matchItems` from the vector of `NaN`: the item whose raw
embedding is the zero vector is stored in the cache with the bit pattern of
`NaN` in every component, and it is not matched, whatever the threshold that
is not `NaN`, here the least one. -/
theorem matchItems_zero_vector_no_match :
    (matchItems latin1Tables zeroLlama plainOS xOps [XNum.fin 1, XNum.fin 0, XNum.fin 0]
      [helloItem] XNum.ninf []).map Prod.snd = some [] ∧
    (matchItems latin1Tables zeroLlama plainOS xOps [XNum.fin 1, XNum.fin 0, XNum.fin 0]
      [helloItem] XNum.ninf []).map (fun r => r.1.map Prod.snd) =
      some [[0, 0, 192, 127, 0, 0, 192, 127, 0, 0, 192, 127]] := by
  decide

/-! ## The normaliser, continued: claims -/

/-- C15: `stripFrontmatter` returns the text unchanged when the text does not
begin with `---`, and when no line after the first is `---` after trimming;
it is a total function, so it never fails. -/
theorem stripFrontmatter_unchanged (text : Str) :
    (HasPrefix text "---".toList = false → stripFrontmatter text = text) ∧
    (∀ l0 rest, Split text '\n' = l0 :: rest → (∀ l ∈ rest, TrimSpace l ≠ "---".toList) →
      stripFrontmatter text = text) := by
  constructor
  · intro h
    unfold stripFrontmatter
    cases hs : Split text '\n' with
    | nil => rfl
    | cons l0 rest =>
      simp only []
      rw [HasPrefix_first_line text l0 rest hs, h]
      rfl
  · intro l0 rest hs hrest
    unfold stripFrontmatter
    rw [hs]
    simp only [findClosing_none rest hrest]
    split <;> rfl

/-- Witness of C15: the texts of the tests `without frontmatter` and `empty`,
and a text whose frontmatter is not closed. -/
theorem stripFrontmatter_unchanged_witness :
    stripFrontmatter "Just plain content".toList = "Just plain content".toList ∧
    stripFrontmatter "".toList = "".toList ∧
    stripFrontmatter "---\nname: test\npriority: high\nContent".toList =
      "---\nname: test\npriority: high\nContent".toList :=
  ⟨(stripFrontmatter_unchanged "Just plain content".toList).1 (by decide),
   (stripFrontmatter_unchanged "".toList).1 (by decide),
   (stripFrontmatter_unchanged "---\nname: test\npriority: high\nContent".toList).2
     "---".toList ["name: test".toList, "priority: high".toList, "Content".toList]
     (by decide) (by decide)⟩

/-- C16: the output of `preprocessText` is the words of the body (the text
after the frontmatter) that are kept, joined by one space each.  Every word of
the output is non-empty, is made of letters and numbers only and is not a stop
word in lower case; the output neither begins nor ends with white space; and
every word of the body of more than one character that is not a stop word in
lower case is a word of the output. -/
theorem preprocessText_tokens (U : UnicodeTables) (hU : U.SpaceFree) (text : Str) :
    preprocessText U text =
      Join ((FieldsFunc (stripFrontmatter text) (isSeparator U)).filter (keepWord U))
        " ".toList ∧
    (∀ t ∈ (FieldsFunc (stripFrontmatter text) (isSeparator U)).filter (keepWord U),
      t ≠ [] ∧ (∀ c ∈ t, IsLetter U c = true ∨ IsNumber U c = true) ∧
        ToLower U t ∉ stopWords) ∧
    (∀ x ∈ (preprocessText U text).head?, IsSpace x = false) ∧
    (∀ x ∈ (preprocessText U text).getLast?, IsSpace x = false) ∧
    (∀ w ∈ FieldsFunc (stripFrontmatter text) (isSeparator U),
      ToLower U w ∉ stopWords → 1 < w.length →
      w ∈ (FieldsFunc (stripFrontmatter text) (isSeparator U)).filter (keepWord U)) := by
  have hw : WordList U ((FieldsFunc (stripFrontmatter text) (isSeparator U)).filter
      (keepWord U)) := fun t ht =>
    fieldsAux_fields (isSeparator U) (stripFrontmatter text) [] (by simp) t
      (List.mem_of_mem_filter ht)
  have heq := preprocessText_eq U hU text
  refine ⟨heq, ?_, ?_, ?_, ?_⟩
  · intro t ht
    refine ⟨(hw t ht).1, fun c hc => (isSeparator_false_iff U c).1 ((hw t ht).2 c hc), ?_⟩
    exact ((keepWord_iff U t).1 (List.mem_filter.1 ht).2).1
  · intro x hx
    rw [heq] at hx
    exact IsSpace_of_word U hU x (Join_head U _ hw x hx)
  · intro x hx
    rw [heq] at hx
    exact IsSpace_of_word U hU x (Join_getLast U _ hw x hx)
  · intro w hmem hstop hlen
    refine List.mem_filter.2 ⟨hmem, (keepWord_iff U w).2 ⟨hstop, ?_⟩⟩
    have := length_le_byteLen w
    omega

/-- Witness of C16 at the text of the test `full preprocessing`. -/
theorem preprocessText_tokens_witness :
    preprocessText latin1Tables
        "---\nname: test\n---\nThis is a Python expert skill for Django and Flask".toList =
      "Python expert skill Django Flask".toList ∧
    "Python".toList ∈ (FieldsFunc (stripFrontmatter
        "---\nname: test\n---\nThis is a Python expert skill for Django and Flask".toList)
        (isSeparator latin1Tables)).filter (keepWord latin1Tables) :=
  ⟨(preprocessText_tokens latin1Tables latin1Tables_spaceFree
      "---\nname: test\n---\nThis is a Python expert skill for Django and Flask".toList).1.trans
      (by decide),
   (preprocessText_tokens latin1Tables latin1Tables_spaceFree
      "---\nname: test\n---\nThis is a Python expert skill for Django and Flask".toList).2.2.2.2
      "Python".toList (by decide) (by decide) (by decide)⟩

/-! ## Metadata: claims -/

/-- C17: for a content that does not begin with `---`, `extractMetadata`
returns the absolute form of the path as the name (the path itself when
`filepath.Abs` fails), the priority `medium`, and the type `agent` when the
path contains `/agents/` or `\agents\` and `skill` otherwise.  For a content
whose first line begins with `---` and whose frontmatter (the lines up to the
first line that is `---` after trimming, or up to the end) carries non-empty
values for `name:`, `priority:` and `type:`, it returns these three values,
the last one of each key. -/
theorem extractMetadata_spec (Abs : Str → Option Str) (content path : Str) :
    (HasPrefix content "---".toList = false →
      extractMetadata Abs content path =
        ((Abs path).getD path, "medium".toList,
          if Contains path "/agents/".toList || Contains path "\\agents\\".toList
          then "agent".toList else "skill".toList)) ∧
    (∀ (l0 : Str) (fm rest : List Str) (n p t : Str),
      Split content '\n' = l0 :: (fm ++ rest) → HasPrefix l0 "---".toList = true →
      (∀ l ∈ fm, TrimSpace l ≠ "---".toList) → (∀ c ∈ rest.head?, TrimSpace c = "---".toList) →
      lastValue "name:".toList fm = some n → lastValue "priority:".toList fm = some p →
      lastValue "type:".toList fm = some t →
      extractMetadata Abs content path = (n, p, t)) := by
  constructor
  · intro h
    have hvars : (match Split content '\n' with
        | [] => (([] : Str), "medium".toList, ([] : Str))
        | l0 :: rest =>
          if HasPrefix l0 "---".toList then metadataLoop ([], "medium".toList, []) rest
          else ([], "medium".toList, [])) = ([], "medium".toList, []) := by
      cases hs : Split content '\n' with
      | nil => rfl
      | cons l0 rest =>
        simp only []
        rw [HasPrefix_first_line content l0 rest hs, h]
        rfl
    unfold extractMetadata
    rw [hvars]
    simp only [if_true]
    congr 1
    · cases Abs path <;> rfl
    · congr 1
      by_cases hc : (Contains path "/agents/".toList || Contains path "\\agents\\".toList) = true
      · rw [if_pos hc, if_pos hc]
      · rw [if_neg hc, if_neg hc]
        split <;> rfl
  · intro l0 fm rest n p t hs hopen hfm hrest hn hp ht
    have hnn := lastValue_ne_nil _ fm n hn
    have htn := lastValue_ne_nil _ fm t ht
    unfold extractMetadata
    rw [hs]
    simp only [hopen, if_true]
    rw [metadataLoop_eq fm rest _ _ _ hfm hrest, hn, hp, ht]
    simp only [Option.getD_some, if_neg hnn, if_neg htn]

/-- Witness of C17 at the contents and paths of the test `TestExtractMetadata`,
with absolute clean paths, which `filepath.Abs` returns as they are. -/
theorem extractMetadata_spec_witness :
    extractMetadata (fun path => some path) "Just content".toList "/path/agents/bar.md".toList =
      ("/path/agents/bar.md".toList, "medium".toList, "agent".toList) ∧
    extractMetadata (fun path => some path) "Just content".toList "/path/skills/foo.md".toList =
      ("/path/skills/foo.md".toList, "medium".toList, "skill".toList) ∧
    extractMetadata (fun path => some path)
        "---\nname: test-skill\npriority: high\ntype: skill\n---\nContent".toList
        "/path/to/file.md".toList =
      ("test-skill".toList, "high".toList, "skill".toList) :=
  ⟨((extractMetadata_spec (fun path => some path) "Just content".toList
      "/path/agents/bar.md".toList).1 (by decide)).trans (by decide),
   ((extractMetadata_spec (fun path => some path) "Just content".toList
      "/path/skills/foo.md".toList).1 (by decide)).trans (by decide),
   (extractMetadata_spec (fun path => some path)
      "---\nname: test-skill\npriority: high\ntype: skill\n---\nContent".toList
      "/path/to/file.md".toList).2 "---".toList
      ["name: test-skill".toList, "priority: high".toList, "type: skill".toList]
      ["---".toList, "Content".toList] _ _ _ (by decide) (by decide) (by decide) (by decide)
      (by decide) (by decide) (by decide)⟩

/-! ## The order of the matches: claims -/

/-- C18: with a context of at least 10 tokens `matchItems` returns, and its
matches are those of a subsequence of the items, in the order of the items and
at most one for each item, every match carrying the name, path, priority and
type of its item; hence the names in every bucket of the report are a
subsequence of the names of the items, in the order of the items. -/
theorem matchItems_subsequence {F D : Type} (U : UnicodeTables) (L : Llama F) (os : OS)
    (fl : FloatOps F D) (promptEmbed : List F) (items : List Item) (threshold : F) (fs : FS)
    (hctx : 10 ≤ L.NCtx) :
    ∃ (fs1 : FS) (picked : List (Item × F)),
      matchItems U L os fl promptEmbed items threshold fs =
        some (fs1, picked.map (fun p => matchOf p.1 p.2)) ∧
      (picked.map Prod.fst).Sublist items ∧
      ∀ key,
        ((bucketMatches U (picked.map (fun p : Item × F => matchOf p.1 p.2))).1 key).Sublist
          (items.map Item.Name) ∧
        ((bucketMatches U (picked.map (fun p : Item × F => matchOf p.1 p.2))).2 key).Sublist
          (items.map Item.Name) := by
  obtain ⟨fs1, picked, h1, h2⟩ :=
    matchItemsLoop_picked U L os fl promptEmbed threshold hctx items fs []
  refine ⟨fs1, picked, by simpa [matchItems] using h1, h2, ?_⟩
  intro key
  have hnames : (picked.map (fun p : Item × F => matchOf p.1 p.2)).map Match.Name =
      (picked.map Prod.fst).map Item.Name := by
    simp [List.map_map, Function.comp_def, matchOf]
  have hsub : ((picked.map (fun p : Item × F => matchOf p.1 p.2)).map Match.Name).Sublist
      (items.map Item.Name) := by
    rw [hnames]
    exact h2.map _
  exact ⟨(bucketMatches_sublist U _ key).1.trans hsub, (bucketMatches_sublist U _ key).2.trans hsub⟩

/-- Witness of C18: the items `helloItem` and `longItem` with a context of 512
tokens and an empty cache. -/
theorem matchItems_subsequence_witness :
    10 ≤ (constLlama 512).NCtx ∧
    ∃ (fs1 : FS) (picked : List (Item × Int)),
      matchItems latin1Tables (constLlama 512) plainOS intOps [1, 0, 0] [helloItem, longItem]
          1 [] = some (fs1, picked.map (fun p => matchOf p.1 p.2)) ∧
      (picked.map Prod.fst).Sublist [helloItem, longItem] ∧
      ∀ key,
        ((bucketMatches latin1Tables
          (picked.map (fun p : Item × Int => matchOf p.1 p.2))).1 key).Sublist
          ([helloItem, longItem].map Item.Name) ∧
        ((bucketMatches latin1Tables
          (picked.map (fun p : Item × Int => matchOf p.1 p.2))).2 key).Sublist
          ([helloItem, longItem].map Item.Name) :=
  ⟨by decide, matchItems_subsequence latin1Tables (constLlama 512) plainOS intOps [1, 0, 0]
    [helloItem, longItem] 1 [] (by decide)⟩

end IntentClassifier
